import Mathlib

set_option linter.unusedSectionVars false
set_option linter.unusedVariables false

/-!
Verification development for the `moss_hecs_hierarchy` repository: an
entity-component-store hierarchy engine (parent/child links stored as
components, keyed by a hierarchy marker type), together with its tree
construction builders.

The repository ships the builders (`src/builder.rs`, `src/builder_clone.rs`)
and the test-suite, while the core modules (`components.rs`, `hierarchy.rs`,
`iter.rs`) are declared in `lib.rs` but their sources are not present.  The
core data model and operations below are therefore modelled from the
specification (sections 3, 4.1 and 4.2), and validated against the behaviour
pinned down by the shipped tests.  Entities are natural numbers (the store's
arena indices), the marker is an arbitrary type with decidable equality, and
component maps are total functions into `Option`.
-/

/-- Error kinds of the hierarchy engine (spec section 7). -/
inductive HErr where
  | noSuchEntity
  | missingComponent
  | cycleDetected
  | alreadyAttached
deriving DecidableEq

/-- Modelled from the spec: `ChildLink<T>` of the missing `components.rs` —
present on every non-root member of a hierarchy; records the immediate
parent and the next/previous sibling of the circular doubly linked sibling
list. -/
structure ChildLink where
  parent : Nat
  next : Nat
  prev : Nat
deriving DecidableEq

/-- Modelled from the spec: `ParentLink<T>` of the missing `components.rs` —
present on every entity with at least one child; records the insertion-order
head of the sibling list and the number of direct children. -/
structure ParentLink where
  firstChild : Nat
  numChildren : Nat
deriving DecidableEq

/-- Modelled from the spec: the entity-component store (the `Frame`), reduced
to what the hierarchy engine consumes — entity allocation, liveness, a
component payload per entity, and the two link components keyed by the
hierarchy marker `M`. -/
structure Frame (M : Type) where
  nextEntity : Nat
  alive : Nat → Bool
  comps : Nat → List Nat
  childLinks : M → Nat → Option ChildLink
  parentLinks : M → Nat → Option ParentLink

section Ops

variable {M : Type} [DecidableEq M]

/-- The empty store: no entities yet. -/
def Frame.empty : Frame M where
  nextEntity := 0
  alive := fun _ => false
  comps := fun _ => []
  childLinks := fun _ _ => none
  parentLinks := fun _ _ => none

/-- Write the `ChildLink` of entity `x` in hierarchy `t`. -/
def setCL (f : Frame M) (t : M) (x : Nat) (v : ChildLink) : Frame M :=
  { f with childLinks := fun t2 y =>
      if t2 = t then (if y = x then some v else f.childLinks t2 y)
      else f.childLinks t2 y }

/-- Remove the `ChildLink` of entity `x` in hierarchy `t`. -/
def removeCL (f : Frame M) (t : M) (x : Nat) : Frame M :=
  { f with childLinks := fun t2 y =>
      if t2 = t then (if y = x then none else f.childLinks t2 y)
      else f.childLinks t2 y }

/-- Update in place the `ChildLink` of entity `x` in hierarchy `t` (no-op when
the component is absent). -/
def modifyCL (f : Frame M) (t : M) (x : Nat) (g : ChildLink → ChildLink) : Frame M :=
  { f with childLinks := fun t2 y =>
      if t2 = t then
        (if y = x then (f.childLinks t2 y).map g else f.childLinks t2 y)
      else f.childLinks t2 y }

/-- Write the `ParentLink` of entity `x` in hierarchy `t`. -/
def setPL (f : Frame M) (t : M) (x : Nat) (v : ParentLink) : Frame M :=
  { f with parentLinks := fun t2 y =>
      if t2 = t then (if y = x then some v else f.parentLinks t2 y)
      else f.parentLinks t2 y }

/-- Remove the `ParentLink` of entity `x` in hierarchy `t`. -/
def removePL (f : Frame M) (t : M) (x : Nat) : Frame M :=
  { f with parentLinks := fun t2 y =>
      if t2 = t then (if y = x then none else f.parentLinks t2 y)
      else f.parentLinks t2 y }

/-- Store primitive: reserve a fresh entity handle without materialising it
(`Frame::reserve` of the external store, consumed by the builders). -/
def reserveE (f : Frame M) : Nat × Frame M :=
  (f.nextEntity, { f with nextEntity := f.nextEntity + 1 })

/-- Store primitive: spawn a live entity carrying the given component bundle. -/
def spawnE (f : Frame M) (bundle : List Nat) : Nat × Frame M :=
  (f.nextEntity,
    { f with
      nextEntity := f.nextEntity + 1
      alive := fun x => if x = f.nextEntity then true else f.alive x
      comps := fun x => if x = f.nextEntity then bundle else f.comps x })

/-- Store primitive: insert a component bundle onto a (possibly reserved)
handle, materialising it; fails with `NoSuchEntity` on an unallocated handle. -/
def insertE (f : Frame M) (e : Nat) (bundle : List Nat) : Frame M × Option HErr :=
  if e < f.nextEntity then
    ({ f with
       alive := fun x => if x = e then true else f.alive x
       comps := fun x => if x = e then bundle ++ f.comps x else f.comps x }, none)
  else (f, some .noSuchEntity)

/-- Store primitive: read an entity's component payload; every access through
a stale/despawned handle fails with `NoSuchEntity`. -/
def getComps (f : Frame M) (e : Nat) : Except HErr (List Nat) :=
  if f.alive e then .ok (f.comps e) else .error .noSuchEntity

/-- Modelled from the spec: the sibling walk of the missing `iter.rs` — yield
`count` entities starting at `cur`, following the `next` pointers of the
circular sibling list (aborting early if a link is missing mid-walk). -/
def childrenAux (f : Frame M) (t : M) : Nat → Nat → List Nat
  | 0, _ => []
  | count + 1, cur =>
    cur :: (match f.childLinks t cur with
            | none => []
            | some cl => childrenAux f t count cl.next)

/-- Modelled from the spec: `children(parent)` of the missing `hierarchy.rs` —
direct children in sibling (insertion) order, walking the circular list from
`first_child` exactly `num_children` times; empty when the entity has no
`ParentLink`. -/
def childrenList (f : Frame M) (t : M) (p : Nat) : List Nat :=
  match f.parentLinks t p with
  | none => []
  | some pl => childrenAux f t pl.numChildren pl.firstChild

/-- Modelled from the spec: `ancestors(entity)` of the missing `iter.rs` —
repeatedly follow `ChildLink.parent`, near-to-far, until an entity lacking a
`ChildLink` is reached; `fuel` bounds the walk. -/
def ancestorsList (f : Frame M) (t : M) : Nat → Nat → List Nat
  | 0, _ => []
  | fuel + 1, e =>
    match f.childLinks t e with
    | none => []
    | some cl => cl.parent :: ancestorsList f t fuel cl.parent

/-- Modelled from the spec: the cycle guard of `attach` — the attach is
rejected when the prospective parent is the child itself or lies in the
child's subtree, detected by walking the parent's ancestor chain and failing
on the child. -/
def cycleCheck (f : Frame M) (t : M) (child parent : Nat) : Bool :=
  child = parent || (ancestorsList f t f.nextEntity parent).contains child

/-- Modelled from the spec: `attach(child, parent)` of the missing
`hierarchy.rs` — insert `child` as the new last sibling under `parent`.
All validation happens before any mutation; on error the store is returned
unchanged. -/
def attach (f : Frame M) (t : M) (child parent : Nat) : Frame M × Option HErr :=
  if ¬ (f.alive child ∧ f.alive parent) then (f, some .noSuchEntity)
  else if (f.childLinks t child).isSome then (f, some .alreadyAttached)
  else if cycleCheck f t child parent then (f, some .cycleDetected)
  else
    match f.parentLinks t parent with
    | none =>
      (setPL (setCL f t child ⟨parent, child, child⟩) t parent ⟨child, 1⟩, none)
    | some pl =>
      match f.childLinks t pl.firstChild with
      | none => (f, some .missingComponent)
      | some clFirst =>
        let first := pl.firstChild
        let last := clFirst.prev
        let f1 := setCL f t child ⟨parent, first, last⟩
        let f2 := modifyCL f1 t last (fun cl => { cl with next := child })
        let f3 := modifyCL f2 t first (fun cl => { cl with prev := child })
        (setPL f3 t parent ⟨first, pl.numChildren + 1⟩, none)

/-- Modelled from the spec: `attach_new(parent, bundle)` of the missing
`hierarchy.rs` — spawn a fresh entity with the bundle, then attach it under
`parent`; returns the new handle. -/
def attachNew (f : Frame M) (t : M) (parent : Nat) (bundle : List Nat) :
    Frame M × Nat × Option HErr :=
  let (c, f1) := spawnE f bundle
  let (f2, err) := attach f1 t c parent
  (f2, c, err)

/-- Modelled from the spec: `detach(entity)` of the missing `hierarchy.rs` —
unlink the entity from its parent's sibling list, leaving its own subtree
untouched; a no-op success on an entity with no `ChildLink`. -/
def detach (f : Frame M) (t : M) (e : Nat) : Frame M × Option HErr :=
  if ¬ f.alive e then (f, some .noSuchEntity)
  else
    match f.childLinks t e with
    | none => (f, none)
    | some cl =>
      match f.parentLinks t cl.parent with
      | none => (removeCL f t e, none)
      | some pl =>
        if pl.numChildren ≤ 1 then
          (removePL (removeCL f t e) t cl.parent, none)
        else
          let f1 := modifyCL f t cl.prev (fun l => { l with next := cl.next })
          let f2 := modifyCL f1 t cl.next (fun l => { l with prev := cl.prev })
          let newFirst := if pl.firstChild = e then cl.next else pl.firstChild
          let f3 := setPL f2 t cl.parent ⟨newFirst, pl.numChildren - 1⟩
          (removeCL f3 t e, none)

/-- Modelled from the spec: `descendants_depth_first(root)` of the missing
`iter.rs` — pre-order traversal, each child followed by its whole subtree
before the next sibling; the implementation's explicit frame stack is
modelled by structural recursion on `fuel`. -/
def dfsList (f : Frame M) (t : M) : Nat → Nat → List Nat
  | 0, _ => []
  | fuel + 1, r => (childrenList f t r).flatMap (fun c => c :: dfsList f t fuel c)

/-- Modelled from the spec: `visit(root, predicate)` of the missing
`hierarchy.rs` — depth-first like `descendants_depth_first`, except the
predicate is evaluated before descending into each node; when it returns
false the node is skipped and its entire subtree is pruned (the semantics
pinned down by the `dfs_skip` test). -/
def visitList (f : Frame M) (t : M) (p : Frame M → Nat → Bool) :
    Nat → Nat → List Nat
  | 0, _ => []
  | fuel + 1, r =>
    (childrenList f t r).flatMap
      (fun c => if p f c then c :: visitList f t p fuel c else [])

/-- Destroy one entity in the store: liveness, payload and the link
components of every hierarchy marker are removed. -/
def killE (f : Frame M) (x : Nat) : Frame M :=
  { f with
    alive := fun y => if y = x then false else f.alive y
    comps := fun y => if y = x then [] else f.comps y
    childLinks := fun t y => if y = x then none else f.childLinks t y
    parentLinks := fun t y => if y = x then none else f.parentLinks t y }

/-- Modelled from the spec: `despawn_all(entity)` of the missing
`hierarchy.rs` — collect the entity and its depth-first descendants, detach
the entity from its parent, then destroy every collected entity in the
store. -/
def despawnAll (f : Frame M) (t : M) (e : Nat) : Frame M × Option HErr :=
  if ¬ f.alive e then (f, some .noSuchEntity)
  else
    let collected := e :: dfsList f t f.nextEntity e
    let f1 := (detach f t e).1
    (collected.foldl killE f1, none)

/-- A descent chain in hierarchy `t`: each element is a direct child of its
predecessor, the first being a child of `r`. -/
def chainB (f : Frame M) (t : M) : Nat → List Nat → Bool
  | _, [] => true
  | r, c :: rest => (childrenList f t r).contains c && chainB f t c rest

end Ops

/-- Tree descriptor of `TreeBuilder` / `TreeBuilderClone`
(`src/builder.rs`, `src/builder_clone.rs`): a component bundle for the node
itself, the node's `OnceCell` reservation state, and the ordered list of
child descriptors. -/
inductive TB where
  | mk : List Nat → Option Nat → List TB → TB

/-- The component bundle of the descriptor's own node. -/
def TB.bundle : TB → List Nat
  | .mk b _ _ => b

/-- The cached reservation (`OnceCell<Entity>`) of the descriptor's node. -/
def TB.cell : TB → Option Nat
  | .mk _ r _ => r

/-- The ordered child descriptors. -/
def TB.children : TB → List TB
  | .mk _ _ cs => cs

mutual

/-- No node of the descriptor has a cached reservation yet. -/
def reservedNone : TB → Bool
  | .mk _ r cs => r.isNone && reservedNoneL cs

/-- List version of `reservedNone`. -/
def reservedNoneL : List TB → Bool
  | [] => true
  | c :: rest => reservedNone c && reservedNoneL rest

end

mutual

/-- Number of nodes of a descriptor. -/
def TBcount : TB → Nat
  | .mk _ _ cs => 1 + TBcountL cs

/-- List version of `TBcount`. -/
def TBcountL : List TB → Nat
  | [] => 0
  | c :: rest => TBcount c + TBcountL rest

end

/-- A concrete three-level tree descriptor with no reservations: a root
bundle `[10]` with children carrying `[11]` and `[12]`, the latter itself
carrying a child with `[13]`. -/
def tb9 : TB := .mk [10] none [.mk [11] none [], .mk [12] none [.mk [13] none []]]

section Builders

variable {M : Type} [DecidableEq M]

/-- `TreeBuilder::reserve` (`src/builder.rs` lines 59-61): return the cached
handle if one exists, otherwise reserve a fresh handle from the store and
cache it. -/
def reserveB (tb : TB) (f : Frame M) : Nat × TB × Frame M :=
  match tb with
  | .mk b r cs =>
    match r with
    | some e => (e, .mk b (some e) cs, f)
    | none =>
      let rf := reserveE f
      (rf.1, .mk b (some rf.1) cs, rf.2)

mutual

/-- `TreeBuilder::spawn` (`src/builder.rs` lines 64-75): reserve the root
handle, insert the root bundle, then spawn each child subtree and attach it
under the root, in descriptor order. -/
def spawnI (t : M) : TB → Frame M → Nat × Frame M
  | .mk b r cs, f =>
    let pr := reserveB (.mk b r cs) f
    let f2 := (insertE pr.2.2 pr.1 b).1
    (pr.1, spawnIList t cs pr.1 f2)

/-- The child loop of `TreeBuilder::spawn`. -/
def spawnIList (t : M) : List TB → Nat → Frame M → Frame M
  | [], _, f => f
  | c :: rest, parent, f =>
    let cf := spawnI t c f
    let f2 := (attach cf.2 t cf.1 parent).1
    spawnIList t rest parent f2

end

/-- A queued command of the external deferred command buffer (spec section 6):
either a queued component insertion or a queued attach closure. -/
inductive Cmd (M : Type) where
  | cinsert : Nat → List Nat → Cmd M
  | cattach : M → Nat → Nat → Cmd M

/-- Apply a single queued command to the store. -/
def execCmd (f : Frame M) : Cmd M → Frame M
  | .cinsert e b => (insertE f e b).1
  | .cattach t c p => (attach f t c p).1

/-- Flush: apply the queued commands strictly in enqueue order. -/
def execCmds (cs : List (Cmd M)) (f : Frame M) : Frame M :=
  cs.foldl execCmd f

mutual

/-- `TreeBuilder::spawn_deferred` (`src/builder.rs` lines 79-91,
`src/builder_clone.rs` lines 49-61): reserve all handles immediately, but
queue the insert of the root bundle followed by, for each child in order,
the child subtree's commands and then the attach of that child to the root. -/
def spawnD (t : M) : TB → Frame M → Nat × Frame M × List (Cmd M)
  | .mk b r cs, f =>
    let pr := reserveB (.mk b r cs) f
    let rest := spawnDList t cs pr.1 pr.2.2
    (pr.1, rest.1, .cinsert pr.1 b :: rest.2)

/-- The child loop of `TreeBuilder::spawn_deferred`. -/
def spawnDList (t : M) : List TB → Nat → Frame M → Frame M × List (Cmd M)
  | [], _, f => (f, [])
  | c :: rest, parent, f =>
    let cf := spawnD t c f
    let more := spawnDList t rest parent cf.2.1
    (more.1, cf.2.2 ++ (.cattach t cf.1 parent :: more.2))

end

/-- Iterated `attach_new`: spawn-and-attach one fresh child per bundle, in
order, returning the final store and the new handles. -/
def attachNewList (t : M) (parent : Nat) :
    List (List Nat) → Frame M → Frame M × List Nat × List (Option HErr)
  | [], f => (f, [], [])
  | b :: rest, f =>
    let r1 := attachNew f t parent b
    let more := attachNewList t parent rest r1.1
    (more.1, r1.2.1 :: more.2.1, r1.2.2 :: more.2.2)

end Builders

/-- Cyclic indexing into a sibling list (index taken modulo the length). -/
def cyc (cs : List Nat) (i : Nat) : Nat := cs.getD (i % cs.length) 0

section Invariants

variable {M : Type} [DecidableEq M]

/-- The circular doubly linked sibling ring of parent `p` holds exactly the
entities of `cs`, in insertion order: the `ParentLink` records the head and
the length, and the `ChildLink` of the `i`-th member points to `p` and to
its two cyclic neighbours (spec section 3, I2-I4). -/
def ringInv (f : Frame M) (t : M) (p : Nat) (cs : List Nat) : Prop :=
  cs ≠ [] ∧
  f.parentLinks t p = some ⟨cyc cs 0, cs.length⟩ ∧
  cs.Nodup ∧
  ∀ i, i < cs.length →
    f.childLinks t (cyc cs i) = some ⟨p, cyc cs (i + 1), cyc cs (i + cs.length - 1)⟩

instance ringInvDecidable (f : Frame M) (t : M) (p : Nat) (cs : List Nat) :
    Decidable (ringInv f t p cs) := by
  unfold ringInv
  infer_instance

/-- The sibling list of `p` is exactly `cs`: either empty with no
`ParentLink` (I2), or a well-formed ring. -/
def ringAt (f : Frame M) (t : M) (p : Nat) (cs : List Nat) : Prop :=
  (cs = [] ∧ f.parentLinks t p = none) ∨ ringInv f t p cs

/-- Everything at or above the allocation watermark is blank: not alive, no
payload, no link component of any hierarchy. -/
def blankAbove (f : Frame M) : Prop :=
  ∀ e, f.nextEntity ≤ e →
    f.alive e = false ∧ f.comps e = [] ∧
    (∀ t, f.childLinks t e = none) ∧ (∀ t, f.parentLinks t e = none)

/-- Every entity handle recorded inside a link component is below the
allocation watermark. -/
def boundedLinks (f : Frame M) : Prop :=
  ∀ t e,
    (∀ cl, f.childLinks t e = some cl →
      cl.parent < f.nextEntity ∧ cl.next < f.nextEntity ∧ cl.prev < f.nextEntity) ∧
    (∀ pl, f.parentLinks t e = some pl → pl.firstChild < f.nextEntity)

/-- Entity `x` carries exactly the same observable state in `g2` as in `g`:
liveness, payload, and the link components of every hierarchy marker. -/
def unchElem (g2 g : Frame M) (x : Nat) : Prop :=
  g2.alive x = g.alive x ∧ g2.comps x = g.comps x ∧
  (∀ t, g2.childLinks t x = g.childLinks t x) ∧
  (∀ t, g2.parentLinks t x = g.parentLinks t x)

end Invariants

section ConcreteStores

/-- A concrete one-entity store over the `Bool` marker type: entity `0` is
live and childless; used as a test bed by the witnesses below. -/
def fw1 : Frame Bool := (spawnE Frame.empty []).2

/-- A concrete store over `Bool` markers with the `dfs_skip` test tree:
root `0` with children `1` and `2`, child `3` under `2`, child `4` under
`3`. -/
def fv : Frame Bool :=
  (attachNew (attachNew (attachNew (attachNew (spawnE (Frame.empty) []).2
    true 0 []).1 true 0 []).1 true 2 []).1 true 3 []).1

/-- A two-entity store where `1` is attached under `0` in the `false`-marker
hierarchy only. -/
def fw2 : Frame Bool := (attach (spawnE (spawnE Frame.empty []).2 []).2 false 1 0).1

/-- A concrete store over `Bool` markers with the `despawn` test tree:
root `0` with children `1`, `2`, `4`, `5` in order, and `3` under `2`. -/
def fd : Frame Bool :=
  (attachNew (attachNew (attachNew (attachNew (attachNew (spawnE (Frame.empty) []).2
    true 0 []).1 true 0 []).1 true 2 []).1 true 0 []).1 true 0 []).1

/-- The entities removed by `despawn_all`: the entity itself and its
depth-first descendants. -/
def collectList {M : Type} [DecidableEq M] (f : Frame M) (t : M) (e : Nat) : List Nat :=
  e :: dfsList f t f.nextEntity e

end ConcreteStores

section BasicLemmas

variable {M : Type} [DecidableEq M]

@[simp] lemma setCL_nextEntity (f : Frame M) (t : M) (x : Nat) (v : ChildLink) :
    (setCL f t x v).nextEntity = f.nextEntity := rfl

@[simp] lemma setCL_alive (f : Frame M) (t : M) (x : Nat) (v : ChildLink) :
    (setCL f t x v).alive = f.alive := rfl

@[simp] lemma setCL_comps (f : Frame M) (t : M) (x : Nat) (v : ChildLink) :
    (setCL f t x v).comps = f.comps := rfl

@[simp] lemma setCL_parentLinks (f : Frame M) (t : M) (x : Nat) (v : ChildLink) :
    (setCL f t x v).parentLinks = f.parentLinks := rfl

lemma setCL_lookup (f : Frame M) (t : M) (x : Nat) (v : ChildLink) (t2 : M) (y : Nat) :
    (setCL f t x v).childLinks t2 y =
      if t2 = t ∧ y = x then some v else f.childLinks t2 y := by
  by_cases h1 : t2 = t <;> by_cases h2 : y = x <;> simp [setCL, h1, h2]

@[simp] lemma removeCL_nextEntity (f : Frame M) (t : M) (x : Nat) :
    (removeCL f t x).nextEntity = f.nextEntity := rfl

@[simp] lemma removeCL_alive (f : Frame M) (t : M) (x : Nat) :
    (removeCL f t x).alive = f.alive := rfl

@[simp] lemma removeCL_comps (f : Frame M) (t : M) (x : Nat) :
    (removeCL f t x).comps = f.comps := rfl

@[simp] lemma removeCL_parentLinks (f : Frame M) (t : M) (x : Nat) :
    (removeCL f t x).parentLinks = f.parentLinks := rfl

lemma removeCL_lookup (f : Frame M) (t : M) (x : Nat) (t2 : M) (y : Nat) :
    (removeCL f t x).childLinks t2 y =
      if t2 = t ∧ y = x then none else f.childLinks t2 y := by
  by_cases h1 : t2 = t <;> by_cases h2 : y = x <;> simp [removeCL, h1, h2]

@[simp] lemma modifyCL_nextEntity (f : Frame M) (t : M) (x : Nat) (g : ChildLink → ChildLink) :
    (modifyCL f t x g).nextEntity = f.nextEntity := rfl

@[simp] lemma modifyCL_alive (f : Frame M) (t : M) (x : Nat) (g : ChildLink → ChildLink) :
    (modifyCL f t x g).alive = f.alive := rfl

@[simp] lemma modifyCL_comps (f : Frame M) (t : M) (x : Nat) (g : ChildLink → ChildLink) :
    (modifyCL f t x g).comps = f.comps := rfl

@[simp] lemma modifyCL_parentLinks (f : Frame M) (t : M) (x : Nat) (g : ChildLink → ChildLink) :
    (modifyCL f t x g).parentLinks = f.parentLinks := rfl

lemma modifyCL_lookup (f : Frame M) (t : M) (x : Nat) (g : ChildLink → ChildLink)
    (t2 : M) (y : Nat) :
    (modifyCL f t x g).childLinks t2 y =
      if t2 = t ∧ y = x then (f.childLinks t2 y).map g else f.childLinks t2 y := by
  by_cases h1 : t2 = t <;> by_cases h2 : y = x <;> simp [modifyCL, h1, h2]

@[simp] lemma setPL_nextEntity (f : Frame M) (t : M) (x : Nat) (v : ParentLink) :
    (setPL f t x v).nextEntity = f.nextEntity := rfl

@[simp] lemma setPL_alive (f : Frame M) (t : M) (x : Nat) (v : ParentLink) :
    (setPL f t x v).alive = f.alive := rfl

@[simp] lemma setPL_comps (f : Frame M) (t : M) (x : Nat) (v : ParentLink) :
    (setPL f t x v).comps = f.comps := rfl

@[simp] lemma setPL_childLinks (f : Frame M) (t : M) (x : Nat) (v : ParentLink) :
    (setPL f t x v).childLinks = f.childLinks := rfl

lemma setPL_lookup (f : Frame M) (t : M) (x : Nat) (v : ParentLink) (t2 : M) (y : Nat) :
    (setPL f t x v).parentLinks t2 y =
      if t2 = t ∧ y = x then some v else f.parentLinks t2 y := by
  by_cases h1 : t2 = t <;> by_cases h2 : y = x <;> simp [setPL, h1, h2]

@[simp] lemma removePL_nextEntity (f : Frame M) (t : M) (x : Nat) :
    (removePL f t x).nextEntity = f.nextEntity := rfl

@[simp] lemma removePL_alive (f : Frame M) (t : M) (x : Nat) :
    (removePL f t x).alive = f.alive := rfl

@[simp] lemma removePL_comps (f : Frame M) (t : M) (x : Nat) :
    (removePL f t x).comps = f.comps := rfl

@[simp] lemma removePL_childLinks (f : Frame M) (t : M) (x : Nat) :
    (removePL f t x).childLinks = f.childLinks := rfl

lemma removePL_lookup (f : Frame M) (t : M) (x : Nat) (t2 : M) (y : Nat) :
    (removePL f t x).parentLinks t2 y =
      if t2 = t ∧ y = x then none else f.parentLinks t2 y := by
  by_cases h1 : t2 = t <;> by_cases h2 : y = x <;> simp [removePL, h1, h2]

@[simp] lemma killE_nextEntity (f : Frame M) (x : Nat) :
    (killE f x).nextEntity = f.nextEntity := rfl

lemma killE_alive (f : Frame M) (x y : Nat) :
    (killE f x).alive y = if y = x then false else f.alive y := rfl

lemma killE_comps (f : Frame M) (x y : Nat) :
    (killE f x).comps y = if y = x then [] else f.comps y := rfl

lemma killE_childLinks (f : Frame M) (x : Nat) (t : M) (y : Nat) :
    (killE f x).childLinks t y = if y = x then none else f.childLinks t y := rfl

lemma killE_parentLinks (f : Frame M) (x : Nat) (t : M) (y : Nat) :
    (killE f x).parentLinks t y = if y = x then none else f.parentLinks t y := rfl

@[simp] lemma spawnE_fst (f : Frame M) (b : List Nat) : (spawnE f b).1 = f.nextEntity := rfl

@[simp] lemma spawnE_nextEntity (f : Frame M) (b : List Nat) :
    (spawnE f b).2.nextEntity = f.nextEntity + 1 := rfl

lemma spawnE_alive (f : Frame M) (b : List Nat) (y : Nat) :
    (spawnE f b).2.alive y = if y = f.nextEntity then true else f.alive y := rfl

lemma spawnE_comps (f : Frame M) (b : List Nat) (y : Nat) :
    (spawnE f b).2.comps y = if y = f.nextEntity then b else f.comps y := rfl

@[simp] lemma spawnE_childLinks (f : Frame M) (b : List Nat) :
    (spawnE f b).2.childLinks = f.childLinks := rfl

@[simp] lemma spawnE_parentLinks (f : Frame M) (b : List Nat) :
    (spawnE f b).2.parentLinks = f.parentLinks := rfl

end BasicLemmas

section CycLemmas

lemma cyc_of_lt {cs : List Nat} {i : Nat} (h : i < cs.length) : cyc cs i = cs.getD i 0 := by
  unfold cyc
  rw [Nat.mod_eq_of_lt h]

lemma cyc_getElem {cs : List Nat} {i : Nat} (h : i < cs.length) : cyc cs i = cs[i] := by
  rw [cyc_of_lt h]
  exact List.getD_eq_getElem cs 0 h

lemma cyc_mem {cs : List Nat} (h : cs ≠ []) (i : Nat) : cyc cs i ∈ cs := by
  have hl : 0 < cs.length := List.length_pos.mpr h
  have hm : i % cs.length < cs.length := Nat.mod_lt _ hl
  unfold cyc
  rw [List.getD_eq_getElem cs 0 hm]
  exact List.getElem_mem hm

lemma cyc_append_lt {cs : List Nat} {c : Nat} {i : Nat} (h : i < cs.length) :
    cyc (cs ++ [c]) i = cyc cs i := by
  have h2 : i < (cs ++ [c]).length := by
    rw [List.length_append]
    omega
  rw [cyc_of_lt h2, cyc_of_lt h]
  exact List.getD_append cs [c] 0 i h

lemma cyc_append_len {cs : List Nat} {c : Nat} : cyc (cs ++ [c]) cs.length = c := by
  have h2 : cs.length < (cs ++ [c]).length := by
    simp
  rw [cyc_of_lt h2, List.getD_append_right cs [c] 0 cs.length (le_refl _)]
  simp

lemma cyc_inj {cs : List Nat} (hnd : cs.Nodup) {i j : Nat}
    (hi : i < cs.length) (hj : j < cs.length) (h : cyc cs i = cyc cs j) : i = j := by
  rw [cyc_getElem hi, cyc_getElem hj] at h
  exact (List.Nodup.getElem_inj_iff hnd).mp h

end CycLemmas

section WalkLemmas

variable {M : Type} [DecidableEq M]

/-- One-step unfolding of the sibling walk. -/
lemma childrenAux_succ (f : Frame M) (t : M) (k cur : Nat) :
    childrenAux f t (k + 1) cur =
      cur :: (match f.childLinks t cur with
              | none => []
              | some cl => childrenAux f t k cl.next) := rfl

/-- A sibling walk whose successor pointers trace out `l` yields exactly `l`. -/
lemma childrenAux_eq_of_succ (f : Frame M) (t : M) :
    ∀ (l : List Nat), l ≠ [] →
    (∀ i, i + 1 < l.length →
      ∃ cl, f.childLinks t (l.getD i 0) = some cl ∧ cl.next = l.getD (i + 1) 0) →
    childrenAux f t l.length (l.getD 0 0) = l := by
  intro l
  induction l with
  | nil => intro h; exact absurd rfl h
  | cons a rest ih =>
    intro _ hsucc
    cases rest with
    | nil =>
      cases hcl : f.childLinks t a <;> simp [childrenAux, hcl]
    | cons b rest2 =>
      obtain ⟨cl, hcl, hnext⟩ := hsucc 0 (by simp)
      simp only [List.getD_cons_zero] at hcl hnext
      have step : ∀ i, i + 1 < (b :: rest2).length →
          ∃ cl2, f.childLinks t ((b :: rest2).getD i 0) = some cl2 ∧
            cl2.next = (b :: rest2).getD (i + 1) 0 := by
        intro i hi
        have := hsucc (i + 1) (by simp at hi ⊢; omega)
        simpa using this
      have ihr := ih (by simp) step
      simp only [List.getD_cons_zero] at ihr
      have hb : cl.next = b := by simpa using hnext
      have ihr2 : childrenAux f t (rest2.length + 1) b = b :: rest2 := ihr
      have unf : childrenAux f t (rest2.length + 1 + 1) a
          = a :: childrenAux f t (rest2.length + 1) cl.next := by
        rw [childrenAux_succ, hcl]
      show childrenAux f t (rest2.length + 1 + 1) a = a :: b :: rest2
      rw [unf, hb, ihr2]

/-- A well-formed sibling ring is walked in order: `children` yields the ring. -/
lemma ringInv_children {f : Frame M} {t : M} {p : Nat} {cs : List Nat}
    (h : ringInv f t p cs) : childrenList f t p = cs := by
  obtain ⟨hne, hpl, hnd, hlink⟩ := h
  have hl : 0 < cs.length := List.length_pos.mpr hne
  unfold childrenList
  rw [hpl]
  have hsucc : ∀ i, i + 1 < cs.length →
      ∃ cl, f.childLinks t (cs.getD i 0) = some cl ∧ cl.next = cs.getD (i + 1) 0 := by
    intro i hi
    refine ⟨⟨p, cyc cs (i + 1), cyc cs (i + cs.length - 1)⟩, ?_, ?_⟩
    · rw [← cyc_of_lt (by omega)]
      exact hlink i (by omega)
    · exact cyc_of_lt hi
  have := childrenAux_eq_of_succ f t cs hne hsucc
  rw [← cyc_of_lt hl] at this
  exact this

/-- `children` of a `ringAt` parent yields exactly the recorded sibling list. -/
lemma ringAt_children {f : Frame M} {t : M} {p : Nat} {cs : List Nat}
    (h : ringAt f t p cs) : childrenList f t p = cs := by
  rcases h with ⟨rfl, hpl⟩ | hr
  · unfold childrenList
    rw [hpl]
  · exact ringInv_children hr

/-- Walk congruence: two stores with the same `ParentLink` at `p` that agree
on the `ChildLink` of every yielded sibling produce the same walk. -/
lemma childrenAux_congr {f g : Frame M} {t : M} :
    ∀ (k cur : Nat),
    (∀ w, w ∈ childrenAux f t k cur → g.childLinks t w = f.childLinks t w) →
    childrenAux g t k cur = childrenAux f t k cur := by
  intro k
  induction k with
  | zero => intro cur _; rfl
  | succ k ih =>
    intro cur hagree
    have hcur : g.childLinks t cur = f.childLinks t cur :=
      hagree cur (by simp [childrenAux])
    cases hcl : f.childLinks t cur with
    | none => simp [childrenAux, hcl, hcur]
    | some cl =>
      have hrec := ih cl.next (by
        intro w hw
        exact hagree w (by simp [childrenAux, hcl]; right; exact hw))
      simp [childrenAux, hcl, hcur, hrec]

/-- `children` congruence under agreement at the parent and its siblings. -/
lemma childrenList_congr {f g : Frame M} {t : M} {p : Nat}
    (hp : g.parentLinks t p = f.parentLinks t p)
    (hl : ∀ w, w ∈ childrenList f t p → g.childLinks t w = f.childLinks t w) :
    childrenList g t p = childrenList f t p := by
  unfold childrenList at *
  rw [hp]
  cases hpl : f.parentLinks t p with
  | none => rfl
  | some pl =>
    rw [hpl] at hl
    exact childrenAux_congr pl.numChildren pl.firstChild hl

end WalkLemmas

section AttachLemmas

variable {M : Type} [DecidableEq M]

/-- Successful attach under a childless parent: create the singleton ring. -/
lemma attach_ok_none {f : Frame M} {t : M} {c p : Nat}
    (h1 : f.alive c = true) (h2 : f.alive p = true) (h3 : f.childLinks t c = none)
    (h4 : cycleCheck f t c p = false) (h5 : f.parentLinks t p = none) :
    attach f t c p = (setPL (setCL f t c ⟨p, c, c⟩) t p ⟨c, 1⟩, none) := by
  simp [attach, h1, h2, h3, h4, h5]

/-- Successful attach under a parent with existing children: splice before the
head of the ring, i.e. after the current last sibling. -/
lemma attach_ok_some {f : Frame M} {t : M} {c p : Nat} {pl : ParentLink} {clF : ChildLink}
    (h1 : f.alive c = true) (h2 : f.alive p = true) (h3 : f.childLinks t c = none)
    (h4 : cycleCheck f t c p = false) (h5 : f.parentLinks t p = some pl)
    (h6 : f.childLinks t pl.firstChild = some clF) :
    attach f t c p =
      (setPL
        (modifyCL
          (modifyCL (setCL f t c ⟨p, pl.firstChild, clF.prev⟩) t clF.prev
            (fun cl => { cl with next := c }))
          t pl.firstChild (fun cl => { cl with prev := c }))
        t p ⟨pl.firstChild, pl.numChildren + 1⟩, none) := by
  simp [attach, h1, h2, h3, h4, h5, h6]

/-- A rejected attach leaves the store exactly as it was. -/
lemma attach_unchanged_of_err (f : Frame M) (t : M) (c p : Nat) :
    (attach f t c p).2 ≠ none → (attach f t c p).1 = f := by
  unfold attach
  split
  · intro _; rfl
  · split
    · intro _; rfl
    · split
      · intro _; rfl
      · split
        · intro h; exact absurd rfl h
        · split
          · intro _; rfl
          · intro h; exact absurd rfl h

/-- Splicing a fresh entity in front of the head of a well-formed ring
extends the ring by one last sibling. -/
lemma ringInv_append {f : Frame M} {t : M} {p c : Nat} {cs : List Nat}
    (hr : ringInv f t p cs) (hcmem : c ∉ cs) (hcp : c ≠ p) :
    ringInv
      (setPL
        (modifyCL
          (modifyCL (setCL f t c ⟨p, cyc cs 0, cyc cs (cs.length - 1)⟩) t
            (cyc cs (cs.length - 1)) (fun cl => { cl with next := c }))
          t (cyc cs 0) (fun cl => { cl with prev := c }))
        t p ⟨cyc cs 0, cs.length + 1⟩) t p (cs ++ [c]) := by
  obtain ⟨hne, hpl, hnd, hlink⟩ := hr
  have hl : 0 < cs.length := List.length_pos.mpr hne
  have len2 : (cs ++ [c]).length = cs.length + 1 := by simp
  have hfirstmem : cyc cs 0 ∈ cs := cyc_mem hne 0
  have hlastmem : cyc cs (cs.length - 1) ∈ cs := cyc_mem hne _
  have hcfirst : c ≠ cyc cs 0 := fun h => hcmem (h ▸ hfirstmem)
  have hclast : c ≠ cyc cs (cs.length - 1) := fun h => hcmem (h ▸ hlastmem)
  have cyc2lt : ∀ j, j < cs.length → cyc (cs ++ [c]) j = cyc cs j := fun j hj =>
    cyc_append_lt hj
  refine ⟨by simp, ?_, ?_, ?_⟩
  · rw [setPL_lookup, if_pos ⟨rfl, rfl⟩, len2, cyc2lt 0 hl]
  · refine List.Nodup.append hnd (List.nodup_singleton c) ?_
    intro a ha hb
    rw [List.mem_singleton] at hb
    subst hb
    exact hcmem ha
  · intro i hi
    rw [len2] at hi
    simp only [setPL_childLinks, len2]
    by_cases hin : i = cs.length
    · subst hin
      rw [cyc_append_len]
      rw [modifyCL_lookup, if_neg (fun h => hcfirst h.2)]
      rw [modifyCL_lookup, if_neg (fun h => hclast h.2)]
      rw [setCL_lookup, if_pos ⟨rfl, rfl⟩]
      have e1 : cyc (cs ++ [c]) (cs.length + 1) = cyc cs 0 := by
        unfold cyc
        rw [len2, Nat.mod_self, Nat.zero_mod]
        exact List.getD_append cs [c] 0 0 hl
      have e2 : cyc (cs ++ [c]) (cs.length + (cs.length + 1) - 1)
          = cyc cs (cs.length - 1) := by
        unfold cyc
        rw [len2,
          show cs.length + (cs.length + 1) - 1 = (cs.length - 1) + (cs.length + 1) by omega,
          Nat.add_mod_right,
          Nat.mod_eq_of_lt (show cs.length - 1 < cs.length + 1 by omega),
          Nat.mod_eq_of_lt (show cs.length - 1 < cs.length by omega)]
        exact List.getD_append cs [c] 0 _ (by omega)
      rw [e1, e2]
    · have hilt : i < cs.length := by omega
      rw [cyc2lt i hilt]
      have hxc : cyc cs i ≠ c := fun h => hcmem (h ▸ cyc_mem hne i)
      have hnext2 : cyc (cs ++ [c]) (i + 1) =
          (if i = cs.length - 1 then c else cyc cs (i + 1)) := by
        by_cases hi1 : i = cs.length - 1
        · subst hi1
          rw [if_pos rfl, show cs.length - 1 + 1 = cs.length by omega, cyc_append_len]
        · rw [if_neg hi1, cyc2lt (i + 1) (by omega)]
      have hprev2 : cyc (cs ++ [c]) (i + (cs.length + 1) - 1) =
          (if i = 0 then c else cyc cs (i + cs.length - 1)) := by
        by_cases hi0 : i = 0
        · subst hi0
          rw [if_pos rfl,
            show (0 : Nat) + (cs.length + 1) - 1 = cs.length by omega, cyc_append_len]
        · rw [if_neg hi0]
          unfold cyc
          rw [len2,
            show i + (cs.length + 1) - 1 = (i - 1) + (cs.length + 1) by omega,
            Nat.add_mod_right,
            show i + cs.length - 1 = (i - 1) + cs.length by omega,
            Nat.add_mod_right,
            Nat.mod_eq_of_lt (show i - 1 < cs.length + 1 by omega),
            Nat.mod_eq_of_lt (show i - 1 < cs.length by omega)]
          exact List.getD_append cs [c] 0 _ (by omega)
      rw [hnext2, hprev2]
      by_cases h1n : cs.length = 1
      · have hi0 : i = 0 := by omega
        subst hi0
        rw [modifyCL_lookup, if_pos ⟨rfl, rfl⟩]
        rw [modifyCL_lookup, if_pos ⟨rfl, by rw [h1n]⟩]
        rw [setCL_lookup, if_neg (fun h => hxc h.2)]
        rw [hlink 0 hl]
        rw [if_pos (by omega), if_pos rfl]
        rfl
      · have h2n : 2 ≤ cs.length := by omega
        have hfl : cyc cs 0 ≠ cyc cs (cs.length - 1) := by
          intro h
          have := cyc_inj hnd hl (by omega) h
          omega
        by_cases hi0 : i = 0
        · subst hi0
          rw [modifyCL_lookup, if_pos ⟨rfl, rfl⟩]
          rw [modifyCL_lookup, if_neg (fun h => hfl h.2)]
          rw [setCL_lookup, if_neg (fun h => hxc h.2)]
          rw [hlink 0 hl]
          rw [if_neg (by omega), if_pos rfl]
          rfl
        · by_cases hi1 : i = cs.length - 1
          · subst hi1
            have hxne : cyc cs (cs.length - 1) ≠ cyc cs 0 := fun h => hfl h.symm
            rw [modifyCL_lookup, if_neg (fun h => hxne h.2)]
            rw [modifyCL_lookup, if_pos ⟨rfl, rfl⟩]
            rw [setCL_lookup, if_neg (fun h => hxc h.2)]
            rw [hlink (cs.length - 1) (by omega)]
            rw [if_pos rfl, if_neg (by omega)]
            rfl
          · have hxf : cyc cs i ≠ cyc cs 0 := by
              intro h
              have := cyc_inj hnd hilt hl h
              omega
            have hxl : cyc cs i ≠ cyc cs (cs.length - 1) := by
              intro h
              have := cyc_inj hnd hilt (by omega) h
              omega
            rw [modifyCL_lookup, if_neg (fun h => hxf h.2)]
            rw [modifyCL_lookup, if_neg (fun h => hxl h.2)]
            rw [setCL_lookup, if_neg (fun h => hxc h.2)]
            rw [hlink i hilt]
            rw [if_neg hi1, if_neg hi0]

end AttachLemmas

section FreshLemmas

variable {M : Type} [DecidableEq M]

/-- A live entity lies below the allocation watermark. -/
lemma alive_lt_of_blank {f : Frame M} (hb : blankAbove f) {p : Nat}
    (h : f.alive p = true) : p < f.nextEntity := by
  by_contra hc
  have h0 := (hb p (by omega)).1
  rw [h0] at h
  exact absurd h (by simp)

/-- Every entity yielded by the ancestor walk is a `parent` field of some
`ChildLink`, hence bounded when all parent fields are. -/
lemma ancestors_parent_bound {f : Frame M} {t : M} {n : Nat}
    (hpar : ∀ e cl, f.childLinks t e = some cl → cl.parent < n) :
    ∀ fuel s x, x ∈ ancestorsList f t fuel s → x < n := by
  intro fuel
  induction fuel with
  | zero => intro s x hx; simp [ancestorsList] at hx
  | succ k ih =>
    intro s x hx
    cases hcl : f.childLinks t s with
    | none => simp [ancestorsList, hcl] at hx
    | some cl =>
      simp only [ancestorsList, hcl, List.mem_cons] at hx
      rcases hx with rfl | hx
      · exact hpar s cl hcl
      · exact ih cl.parent x hx

/-- The cycle guard passes for a child handle larger than every recorded
parent handle and distinct from the parent. -/
lemma cycleCheck_false_of_big {f : Frame M} {t : M} {c p : Nat} (hcp : c ≠ p)
    (hpar : ∀ e cl, f.childLinks t e = some cl → cl.parent < c) :
    cycleCheck f t c p = false := by
  have hmem : c ∉ ancestorsList f t f.nextEntity p := fun hm =>
    absurd (ancestors_parent_bound hpar _ _ _ hm) (by omega)
  simp [cycleCheck, hmem, hcp]

/-- The cycle guard under a parent that is itself a root reduces to the
self-attach test. -/
lemma cycleCheck_of_rootParent {f : Frame M} {t : M} {c p : Nat}
    (h : f.childLinks t p = none) : cycleCheck f t c p = decide (c = p) := by
  unfold cycleCheck
  cases hf : f.nextEntity with
  | zero => simp [ancestorsList]
  | succ n => simp [ancestorsList, h]

lemma blankAbove_empty : blankAbove (Frame.empty : Frame M) := by
  intro e he
  exact ⟨rfl, rfl, fun _ => rfl, fun _ => rfl⟩

lemma boundedLinks_empty : boundedLinks (Frame.empty : Frame M) := by
  intro t e
  exact ⟨fun cl hcl => by simp [Frame.empty] at hcl,
    fun pl hpl => by simp [Frame.empty] at hpl⟩

lemma blankAbove_spawnE {f : Frame M} (hb : blankAbove f) (b : List Nat) :
    blankAbove (spawnE f b).2 := by
  intro e he
  simp only [spawnE_nextEntity] at he
  obtain ⟨h1, h2, h3, h4⟩ := hb e (by omega)
  refine ⟨?_, ?_, h3, h4⟩
  · rw [spawnE_alive, if_neg (by omega)]
    exact h1
  · rw [spawnE_comps, if_neg (by omega)]
    exact h2

lemma boundedLinks_spawnE {f : Frame M} (hb : boundedLinks f) (b : List Nat) :
    boundedLinks (spawnE f b).2 := by
  intro t e
  obtain ⟨h1, h2⟩ := hb t e
  refine ⟨?_, ?_⟩
  · intro cl hcl
    rw [spawnE_childLinks] at hcl
    have := h1 cl hcl
    simp only [spawnE_nextEntity]
    omega
  · intro pl hpl
    rw [spawnE_parentLinks] at hpl
    have := h2 pl hpl
    simp only [spawnE_nextEntity]
    omega

lemma blankAbove_setCL {f : Frame M} {t : M} {x : Nat} {v : ChildLink}
    (hb : blankAbove f) (hx : x < f.nextEntity) : blankAbove (setCL f t x v) := by
  intro e he
  simp only [setCL_nextEntity] at he
  obtain ⟨h1, h2, h3, h4⟩ := hb e he
  refine ⟨h1, h2, fun t2 => ?_, h4⟩
  rw [setCL_lookup, if_neg (by rintro ⟨_, rfl⟩; omega)]
  exact h3 t2

lemma blankAbove_modifyCL {f : Frame M} {t : M} {x : Nat} {g : ChildLink → ChildLink}
    (hb : blankAbove f) : blankAbove (modifyCL f t x g) := by
  intro e he
  simp only [modifyCL_nextEntity] at he
  obtain ⟨h1, h2, h3, h4⟩ := hb e he
  refine ⟨h1, h2, fun t2 => ?_, h4⟩
  rw [modifyCL_lookup]
  split
  · rename_i hcond
    rw [h3 t2]
    rfl
  · exact h3 t2

lemma blankAbove_removeCL {f : Frame M} {t : M} {x : Nat}
    (hb : blankAbove f) : blankAbove (removeCL f t x) := by
  intro e he
  simp only [removeCL_nextEntity] at he
  obtain ⟨h1, h2, h3, h4⟩ := hb e he
  refine ⟨h1, h2, fun t2 => ?_, h4⟩
  rw [removeCL_lookup]
  split
  · rfl
  · exact h3 t2

lemma blankAbove_setPL {f : Frame M} {t : M} {x : Nat} {v : ParentLink}
    (hb : blankAbove f) (hx : x < f.nextEntity) : blankAbove (setPL f t x v) := by
  intro e he
  simp only [setPL_nextEntity] at he
  obtain ⟨h1, h2, h3, h4⟩ := hb e he
  refine ⟨h1, h2, h3, fun t2 => ?_⟩
  rw [setPL_lookup, if_neg (by rintro ⟨_, rfl⟩; omega)]
  exact h4 t2

lemma blankAbove_removePL {f : Frame M} {t : M} {x : Nat}
    (hb : blankAbove f) : blankAbove (removePL f t x) := by
  intro e he
  simp only [removePL_nextEntity] at he
  obtain ⟨h1, h2, h3, h4⟩ := hb e he
  refine ⟨h1, h2, h3, fun t2 => ?_⟩
  rw [removePL_lookup]
  split
  · rfl
  · exact h4 t2

lemma boundedLinks_setCL {f : Frame M} {t : M} {x : Nat} {v : ChildLink}
    (hb : boundedLinks f)
    (hv : v.parent < f.nextEntity ∧ v.next < f.nextEntity ∧ v.prev < f.nextEntity) :
    boundedLinks (setCL f t x v) := by
  intro t2 e
  obtain ⟨h1, h2⟩ := hb t2 e
  refine ⟨?_, ?_⟩
  · intro cl hcl
    rw [setCL_lookup] at hcl
    simp only [setCL_nextEntity]
    split at hcl
    · cases hcl
      exact hv
    · exact h1 cl hcl
  · intro pl hpl
    rw [setCL_parentLinks] at hpl
    simp only [setCL_nextEntity]
    exact h2 pl hpl

lemma boundedLinks_modifyCL {f : Frame M} {t : M} {x : Nat} {g : ChildLink → ChildLink}
    (hb : boundedLinks f)
    (hg : ∀ cl, (cl.parent < f.nextEntity ∧ cl.next < f.nextEntity ∧ cl.prev < f.nextEntity) →
      ((g cl).parent < f.nextEntity ∧ (g cl).next < f.nextEntity ∧ (g cl).prev < f.nextEntity)) :
    boundedLinks (modifyCL f t x g) := by
  intro t2 e
  obtain ⟨h1, h2⟩ := hb t2 e
  refine ⟨?_, ?_⟩
  · intro cl hcl
    rw [modifyCL_lookup] at hcl
    simp only [modifyCL_nextEntity]
    split at hcl
    · rename_i hcond
      cases hv : f.childLinks t2 e with
      | none => rw [hv] at hcl; cases hcl
      | some cl0 =>
        rw [hv] at hcl
        cases hcl
        exact hg cl0 ((hb t2 e).1 cl0 hv)
    · exact h1 cl hcl
  · intro pl hpl
    rw [modifyCL_parentLinks] at hpl
    simp only [modifyCL_nextEntity]
    exact h2 pl hpl

lemma boundedLinks_removeCL {f : Frame M} {t : M} {x : Nat}
    (hb : boundedLinks f) : boundedLinks (removeCL f t x) := by
  intro t2 e
  obtain ⟨h1, h2⟩ := hb t2 e
  refine ⟨?_, ?_⟩
  · intro cl hcl
    rw [removeCL_lookup] at hcl
    simp only [removeCL_nextEntity]
    split at hcl
    · cases hcl
    · exact h1 cl hcl
  · intro pl hpl
    rw [removeCL_parentLinks] at hpl
    simp only [removeCL_nextEntity]
    exact h2 pl hpl

lemma boundedLinks_setPL {f : Frame M} {t : M} {x : Nat} {v : ParentLink}
    (hb : boundedLinks f) (hv : v.firstChild < f.nextEntity) :
    boundedLinks (setPL f t x v) := by
  intro t2 e
  obtain ⟨h1, h2⟩ := hb t2 e
  refine ⟨?_, ?_⟩
  · intro cl hcl
    rw [setPL_childLinks] at hcl
    simp only [setPL_nextEntity]
    exact h1 cl hcl
  · intro pl hpl
    rw [setPL_lookup] at hpl
    simp only [setPL_nextEntity]
    split at hpl
    · cases hpl
      exact hv
    · exact h2 pl hpl

lemma boundedLinks_removePL {f : Frame M} {t : M} {x : Nat}
    (hb : boundedLinks f) : boundedLinks (removePL f t x) := by
  intro t2 e
  obtain ⟨h1, h2⟩ := hb t2 e
  refine ⟨?_, ?_⟩
  · intro cl hcl
    rw [removePL_childLinks] at hcl
    simp only [removePL_nextEntity]
    exact h1 cl hcl
  · intro pl hpl
    rw [removePL_lookup] at hpl
    simp only [removePL_nextEntity]
    split at hpl
    · cases hpl
    · exact h2 pl hpl

/-- Members of a well-formed ring are recorded link fields, hence bounded. -/
lemma ringInv_members_lt {f : Frame M} {t : M} {p : Nat} {cs : List Nat}
    (hr : ringInv f t p cs) (hb : boundedLinks f) :
    ∀ x ∈ cs, x < f.nextEntity := by
  obtain ⟨hne, hpl, hnd, hlink⟩ := hr
  have hl : 0 < cs.length := List.length_pos.mpr hne
  intro x hx
  obtain ⟨i, hi, rfl⟩ := List.getElem_of_mem hx
  cases Nat.eq_zero_or_pos i with
  | inl h0 =>
    subst h0
    have hfc := (hb t p).2 _ hpl
    rw [← cyc_getElem hl]
    exact hfc
  | inr hpos =>
    have hstep := hlink (i - 1) (by omega)
    have hbnd := ((hb t _).1 _ hstep).2.1
    have : cyc cs (i - 1 + 1) = cs[i] := by
      rw [show i - 1 + 1 = i by omega]
      exact cyc_getElem hi
    rw [this] at hbnd
    exact hbnd

/-- Rings are insensitive to spawning a fresh entity. -/
lemma ringInv_spawnE {f : Frame M} {t : M} {p : Nat} {cs : List Nat} {b : List Nat}
    (hr : ringInv f t p cs) : ringInv (spawnE f b).2 t p cs := hr

lemma ringAt_spawnE {f : Frame M} {t : M} {p : Nat} {cs : List Nat} {b : List Nat}
    (hr : ringAt f t p cs) : ringAt (spawnE f b).2 t p cs := hr

end FreshLemmas

section AttachNewLemmas

variable {M : Type} [DecidableEq M]

/-- `attach_new` under a well-formed parent: it succeeds, returns the fresh
handle, extends the sibling ring by exactly one new last sibling, and
preserves the store invariants. -/
lemma attachNew_step {f : Frame M} {t : M} {p : Nat} {cs : List Nat} (b : List Nat)
    (hb : blankAbove f) (hbl : boundedLinks f)
    (hal : f.alive p = true) (hring : ringAt f t p cs) :
    (attachNew f t p b).2.2 = none ∧
    (attachNew f t p b).2.1 = f.nextEntity ∧
    (attachNew f t p b).1.nextEntity = f.nextEntity + 1 ∧
    (attachNew f t p b).1.alive p = true ∧
    blankAbove (attachNew f t p b).1 ∧
    boundedLinks (attachNew f t p b).1 ∧
    ringAt (attachNew f t p b).1 t p (cs ++ [f.nextEntity]) := by
  have hplt : p < f.nextEntity := alive_lt_of_blank hb hal
  have halc : (spawnE f b).2.alive f.nextEntity = true := by
    rw [spawnE_alive, if_pos rfl]
  have halp : (spawnE f b).2.alive p = true := by
    rw [spawnE_alive, if_neg (by omega)]
    exact hal
  have hclc : (spawnE f b).2.childLinks t f.nextEntity = none := by
    rw [spawnE_childLinks]
    exact (hb f.nextEntity (le_refl _)).2.2.1 t
  have hcyc : cycleCheck (spawnE f b).2 t f.nextEntity p = false := by
    apply cycleCheck_false_of_big (by omega)
    intro e cl hcl
    rw [spawnE_childLinks] at hcl
    exact ((hbl t e).1 cl hcl).1
  have hun : attachNew f t p b =
      ((attach (spawnE f b).2 t f.nextEntity p).1, f.nextEntity,
       (attach (spawnE f b).2 t f.nextEntity p).2) := rfl
  rcases hring with ⟨rfl, hpl⟩ | hr
  · have hpl1 : (spawnE f b).2.parentLinks t p = none := hpl
    have hat := attach_ok_none halc halp hclc hcyc hpl1
    rw [hun, hat]
    refine ⟨rfl, rfl, rfl, ?_, ?_, ?_, ?_⟩
    · simpa using halp
    · refine blankAbove_setPL (blankAbove_setCL (blankAbove_spawnE hb b) ?_) ?_
      · simp only [spawnE_nextEntity]
        omega
      · simp only [setCL_nextEntity, spawnE_nextEntity]
        omega
    · refine boundedLinks_setPL (boundedLinks_setCL (boundedLinks_spawnE hbl b) ?_) ?_
      · simp only [spawnE_nextEntity]
        omega
      · simp only [setCL_nextEntity, spawnE_nextEntity]
        omega
    · right
      refine ⟨by simp, ?_, by simp, ?_⟩
      · rw [setPL_lookup, if_pos ⟨rfl, rfl⟩]
        rfl
      · intro i hi
        have hi0 : i = 0 := by simpa using hi
        subst hi0
        rw [setPL_childLinks, setCL_lookup, if_pos ⟨rfl, rfl⟩]
        simp [cyc]
  · have hne := hr.1
    have hl : 0 < cs.length := List.length_pos.mpr hne
    have hpl1 : (spawnE f b).2.parentLinks t p = some ⟨cyc cs 0, cs.length⟩ := hr.2.1
    have h0 : (spawnE f b).2.childLinks t (cyc cs 0) =
        some ⟨p, cyc cs 1, cyc cs (cs.length - 1)⟩ := by
      have h00 := hr.2.2.2 0 hl
      simpa using h00
    have hat := attach_ok_some halc halp hclc hcyc hpl1 h0
    rw [hun, hat]
    have hmem : ∀ x ∈ cs, x < f.nextEntity := ringInv_members_lt hr hbl
    have hcnot : f.nextEntity ∉ cs := fun hx => absurd (hmem _ hx) (by omega)
    have happ := ringInv_append (f := (spawnE f b).2) (c := f.nextEntity) hr hcnot (by omega)
    refine ⟨rfl, rfl, rfl, ?_, ?_, ?_, Or.inr happ⟩
    · simpa using halp
    · refine blankAbove_setPL
        (blankAbove_modifyCL (blankAbove_modifyCL
          (blankAbove_setCL (blankAbove_spawnE hb b) ?_))) ?_
      · simp only [spawnE_nextEntity]
        omega
      · simp only [modifyCL_nextEntity, setCL_nextEntity, spawnE_nextEntity]
        omega
    · have hbnd : ∀ x ∈ cs, x < (spawnE f b).2.nextEntity := by
        intro x hx
        have := hmem x hx
        simp only [spawnE_nextEntity]
        omega
      refine boundedLinks_setPL
        (boundedLinks_modifyCL (boundedLinks_modifyCL
          (boundedLinks_setCL (boundedLinks_spawnE hbl b) ?_) ?_) ?_) ?_
      · refine ⟨?_, ?_, ?_⟩
        · simp only [spawnE_nextEntity]
          omega
        · exact hbnd _ (cyc_mem hne 0)
        · exact hbnd _ (cyc_mem hne _)
      · intro cl hcl
        refine ⟨hcl.1, ?_, hcl.2.2⟩
        simp only [setCL_nextEntity, spawnE_nextEntity]
        omega
      · intro cl hcl
        refine ⟨hcl.1, hcl.2.1, ?_⟩
        simp only [modifyCL_nextEntity, setCL_nextEntity, spawnE_nextEntity]
        omega
      · simp only [modifyCL_nextEntity, setCL_nextEntity]
        exact hbnd _ (cyc_mem hne 0)

/-- Iterated `attach_new` appends the fresh handles to the sibling ring in
call order, with every call succeeding. -/
lemma attachNewList_ring {t : M} {p : Nat} :
    ∀ (bs : List (List Nat)) (f : Frame M) (cs : List Nat),
    blankAbove f → boundedLinks f → f.alive p = true → ringAt f t p cs →
    ringAt (attachNewList t p bs f).1 t p (cs ++ (attachNewList t p bs f).2.1) ∧
    (attachNewList t p bs f).2.2.all Option.isNone = true ∧
    blankAbove (attachNewList t p bs f).1 ∧
    boundedLinks (attachNewList t p bs f).1 ∧
    (attachNewList t p bs f).1.alive p = true := by
  intro bs
  induction bs with
  | nil =>
    intro f cs hb hbl hal hring
    refine ⟨?_, by simp [attachNewList], hb, hbl, hal⟩
    simpa [attachNewList] using hring
  | cons b rest ih =>
    intro f cs hb hbl hal hring
    obtain ⟨he, hh, hnext, halp, hba, hbl2, hring2⟩ := attachNew_step b hb hbl hal hring
    have hun : attachNewList t p (b :: rest) f =
        ((attachNewList t p rest (attachNew f t p b).1).1,
         (attachNew f t p b).2.1 :: (attachNewList t p rest (attachNew f t p b).1).2.1,
         (attachNew f t p b).2.2 :: (attachNewList t p rest (attachNew f t p b).1).2.2) := rfl
    rw [hun]
    obtain ⟨ih1, ih2, ih3, ih4, ih5⟩ :=
      ih (attachNew f t p b).1 (cs ++ [f.nextEntity]) hba hbl2 halp hring2
    refine ⟨?_, ?_, ih3, ih4, ih5⟩
    · rw [hh]
      rw [show cs ++ f.nextEntity :: (attachNewList t p rest (attachNew f t p b).1).2.1
            = (cs ++ [f.nextEntity]) ++ (attachNewList t p rest (attachNew f t p b).1).2.1
          by simp]
      exact ih1
    · simp only [List.all_cons, he, ih2]
      rfl

end AttachNewLemmas

/-- C1: for every parent entity and every sequence of `attach_new` calls
placing children under that parent (with no intervening detach),
`children(parent)` yields exactly the new handles in attachment (insertion)
order — `attach` inserts each child as the new last sibling — and every call
succeeds. -/
theorem C1_attach_order {M : Type} [DecidableEq M] (f : Frame M) (t : M) (p : Nat)
    (bs : List (List Nat))
    (h1 : blankAbove f) (h2 : boundedLinks f) (h3 : f.alive p = true)
    (h4 : f.parentLinks t p = none) :
    childrenList (attachNewList t p bs f).1 t p = (attachNewList t p bs f).2.1 ∧
    (attachNewList t p bs f).2.2.all Option.isNone = true := by
  obtain ⟨hring, herr, _, _, _⟩ := attachNewList_ring bs f [] h1 h2 h3 (Or.inl ⟨rfl, h4⟩)
  refine ⟨?_, herr⟩
  have h := ringAt_children hring
  simpa using h

/-- Witness for C1 at a concrete store: three `attach_new` calls under root
`0` yield children `[1, 2, 3]` in attachment order. -/
theorem C1_attach_order_witness :
    childrenList (attachNewList true 0 [[7], [8], [9]] fw1).1 true 0 = [1, 2, 3] ∧
    (attachNewList true 0 [[7], [8], [9]] fw1).2.2.all Option.isNone = true := by
  have h := C1_attach_order fw1 true 0 [[7], [8], [9]]
    (blankAbove_spawnE blankAbove_empty []) (boundedLinks_spawnE boundedLinks_empty [])
    rfl rfl
  exact ⟨h.1.trans (by decide), h.2⟩

section ChainLemmas

variable {M : Type} [DecidableEq M]

/-- Membership in the depth-first descendant walk is existence of a descent
chain from the root, of length at most the fuel. -/
lemma mem_dfsList {f : Frame M} {t : M} :
    ∀ (n root d : Nat), d ∈ dfsList f t n root ↔
      ∃ l, chainB f t root l = true ∧ l ≠ [] ∧ l.getLast? = some d ∧ l.length ≤ n := by
  intro n
  induction n with
  | zero =>
    intro root d
    simp only [dfsList, List.not_mem_nil, false_iff]
    rintro ⟨l, _, hne, _, hlen⟩
    cases l with
    | nil => exact hne rfl
    | cons a rest => simp at hlen
  | succ n ih =>
    intro root d
    constructor
    · intro hd
      obtain ⟨c, hc, hmem⟩ := List.exists_of_mem_flatMap hd
      rcases List.mem_cons.mp hmem with rfl | hmem2
      · exact ⟨[d], by simp [chainB, hc], by simp, by simp, by simp⟩
      · obtain ⟨l, hch, hne, hlast, hlen⟩ := (ih c d).mp hmem2
        refine ⟨c :: l, by simp [chainB, hc, hch], by simp, ?_, by simp; omega⟩
        cases l with
        | nil => exact absurd rfl hne
        | cons b rest => simpa using hlast
    · rintro ⟨l, hch, hne, hlast, hlen⟩
      cases l with
      | nil => exact absurd rfl hne
      | cons c rest =>
        simp only [chainB, Bool.and_eq_true, List.elem_iff] at hch
        obtain ⟨hc, hch2⟩ := hch
        cases rest with
        | nil =>
          have hcd : c = d := by simpa using hlast
          subst hcd
          exact List.mem_flatMap.mpr ⟨c, hc, by simp⟩
        | cons b rest2 =>
          have hlast2 : (b :: rest2).getLast? = some d := by simpa using hlast
          have hd : d ∈ dfsList f t n c :=
            (ih c d).mpr ⟨b :: rest2, hch2, by simp, hlast2, by simp at hlen ⊢; omega⟩
          exact List.mem_flatMap.mpr ⟨c, hc, by simp [hd]⟩

/-- Membership in the predicate-gated walk is existence of a descent chain
every element of which satisfies the predicate. -/
lemma mem_visitList {f : Frame M} {t : M} {pr : Frame M → Nat → Bool} :
    ∀ (n root d : Nat), d ∈ visitList f t pr n root ↔
      ∃ l, chainB f t root l = true ∧ l ≠ [] ∧ l.getLast? = some d ∧ l.length ≤ n ∧
        l.all (pr f) = true := by
  intro n
  induction n with
  | zero =>
    intro root d
    simp only [visitList, List.not_mem_nil, false_iff]
    rintro ⟨l, _, hne, _, hlen, _⟩
    cases l with
    | nil => exact hne rfl
    | cons a rest => simp at hlen
  | succ n ih =>
    intro root d
    constructor
    · intro hd
      obtain ⟨c, hc, hmem⟩ := List.exists_of_mem_flatMap hd
      by_cases hp : pr f c = true
      · rw [if_pos hp] at hmem
        rcases List.mem_cons.mp hmem with rfl | hmem2
        · exact ⟨[d], by simp [chainB, hc], by simp, by simp, by simp, by simp [hp]⟩
        · obtain ⟨l, hch, hne, hlast, hlen, hall⟩ := (ih c d).mp hmem2
          refine ⟨c :: l, by simp [chainB, hc, hch], by simp, ?_, by simp; omega,
            by simp [hp, hall]⟩
          cases l with
          | nil => exact absurd rfl hne
          | cons b rest => simpa using hlast
      · rw [if_neg hp] at hmem
        simp at hmem
    · rintro ⟨l, hch, hne, hlast, hlen, hall⟩
      cases l with
      | nil => exact absurd rfl hne
      | cons c rest =>
        simp only [chainB, Bool.and_eq_true, List.elem_iff] at hch
        obtain ⟨hc, hch2⟩ := hch
        have hpc : pr f c = true := by
          have := hall
          simp only [List.all_cons, Bool.and_eq_true] at this
          exact this.1
        cases rest with
        | nil =>
          have hcd : c = d := by simpa using hlast
          subst hcd
          exact List.mem_flatMap.mpr ⟨c, hc, by simp [hpc]⟩
        | cons b rest2 =>
          have hlast2 : (b :: rest2).getLast? = some d := by simpa using hlast
          have hall2 : (b :: rest2).all (pr f) = true := by
            simp only [List.all_cons, Bool.and_eq_true] at hall ⊢
            exact hall.2
          have hd : d ∈ visitList f t pr n c :=
            (ih c d).mpr ⟨b :: rest2, hch2, by simp, hlast2, by simp at hlen ⊢; omega, hall2⟩
          exact List.mem_flatMap.mpr ⟨c, hc, by simp [hpc, hd]⟩

end ChainLemmas

section VisitLemmas

variable {M : Type} [DecidableEq M]

/-- When the predicate holds on every descendant, the gated walk does not
prune anything and coincides with the plain depth-first walk. -/
lemma visit_eq_dfs_of_all (f : Frame M) (t : M) (pr : Frame M → Nat → Bool) :
    ∀ (n root : Nat), (∀ d ∈ dfsList f t n root, pr f d = true) →
    visitList f t pr n root = dfsList f t n root := by
  intro n
  induction n with
  | zero => intro root _; rfl
  | succ n ih =>
    intro root h
    simp only [visitList, dfsList]
    apply List.flatMap_congr
    intro c hc
    have hcd : c ∈ dfsList f t (n + 1) root :=
      List.mem_flatMap.mpr ⟨c, hc, by simp⟩
    rw [if_pos (h c hcd)]
    congr 1
    apply ih
    intro d hd
    exact h d (List.mem_flatMap.mpr ⟨c, hc, by simp [hd]⟩)

end VisitLemmas

/-- C2: `visit(root, p)` walks depth first; a descendant on which the
predicate is false is itself not yielded (every yielded entity satisfies the
predicate and is a depth-first descendant); conversely — for an arbitrary
predicate — every descendant whose whole descent chain from the root
satisfies the predicate IS yielded; with an everywhere-true predicate the
walk coincides with `descendants_depth_first`; and an entity reachable only
through a predicate-false node is pruned — not visited, not yielded. -/
theorem C2_visit_prunes {M : Type} [DecidableEq M] (f : Frame M) (t : M)
    (pr : Frame M → Nat → Bool) (n root : Nat) :
    (∀ d, d ∈ visitList f t pr n root → pr f d = true ∧ d ∈ dfsList f t n root) ∧
    (∀ d l, chainB f t root l = true → l ≠ [] → l.getLast? = some d →
      l.length ≤ n → l.all (pr f) = true → d ∈ visitList f t pr n root) ∧
    ((∀ d ∈ dfsList f t n root, pr f d = true) →
      visitList f t pr n root = dfsList f t n root) ∧
    (∀ d x, pr f d = false →
      (∀ l, chainB f t root l = true → l.getLast? = some x → d ∈ l) →
      x ∉ visitList f t pr n root) := by
  refine ⟨?_, ?_, visit_eq_dfs_of_all f t pr n root, ?_⟩
  · intro d hd
    obtain ⟨l, hch, hne, hlast, hlen, hall⟩ := (mem_visitList n root d).mp hd
    refine ⟨?_, (mem_dfsList n root d).mpr ⟨l, hch, hne, hlast, hlen⟩⟩
    rw [List.all_eq_true] at hall
    exact hall d (List.mem_of_mem_getLast? hlast)
  · intro d l hch hne hlast hlen hall
    exact (mem_visitList n root d).mpr ⟨l, hch, hne, hlast, hlen, hall⟩
  · intro d x hpd hsub hx
    obtain ⟨l, hch, hne, hlast, hlen, hall⟩ := (mem_visitList n root x).mp hx
    have hdl : d ∈ l := hsub l hch hlast
    rw [List.all_eq_true] at hall
    have hcontra := hall d hdl
    rw [hpd] at hcontra
    exact absurd hcontra (by simp)

/-- Witness for C2 at a concrete store, in the `dfs_skip` scenario (the
predicate false exactly on `3`): the predicate-true child `2` is yielded via
its one-element chain, the full walk yields `[1, 2]`, and with an all-true
predicate `visit` yields exactly the depth-first descendants
`[1, 2, 3, 4]`. -/
theorem C2_visit_prunes_witness :
    2 ∈ visitList fv true (fun _ e => ! (e == 3)) 10 0 ∧
    visitList fv true (fun _ e => ! (e == 3)) 10 0 = [1, 2] ∧
    visitList fv true (fun _ _ => true) 10 0 = dfsList fv true 10 0 ∧
    dfsList fv true 10 0 = [1, 2, 3, 4] := by
  have h := C2_visit_prunes fv true (fun _ e => ! (e == 3)) 10 0
  have h2 := C2_visit_prunes fv true (fun _ _ => true) 10 0
  exact ⟨h.2.1 2 [2] (by decide) (by decide) (by decide) (by decide) (by decide),
    by decide, h2.2.2.1 (by decide), by decide⟩

/-- C3 counterexample: on the tree root `0 → 1`, `0 → 2 → 3 → 4` with the
predicate false exactly on `2`, `visit` does NOT yield `[1, 2]` — the
predicate-false node is itself skipped, not merely its subtree. -/
theorem C3_counterexample :
    visitList fv true (fun _ e => ! (e == 2)) 10 0 ≠ [1, 2] := by decide

/-- C3 (amended): in the same hierarchy with the predicate false exactly on
`c2 = 2`, `visit(root, p)` yields `[1]` — the predicate gates the node
itself as well as its subtree: `2` is not yielded and `3`, `4` are pruned. -/
theorem C3_visit_skips_gated_node :
    visitList fv true (fun _ e => ! (e == 2)) 10 0 = [1] := by decide

/-- C4 (amended): `ancestors(e)` yields the parent, grandparent, … in
near-to-far order, ending at — and INCLUDING — the first root: when the walk
terminates within its fuel, the last yielded entity is precisely the first
ancestor lacking a `ChildLink`. -/
theorem C4_ancestors_order {M : Type} [DecidableEq M] (f : Frame M) (t : M) :
    ∀ (n e : Nat), (ancestorsList f t n e).length < n →
    (f.childLinks t e = none → ancestorsList f t n e = []) ∧
    (∀ cl, f.childLinks t e = some cl →
      (ancestorsList f t n e).head? = some cl.parent) ∧
    (∀ i, i + 1 < (ancestorsList f t n e).length →
      ∃ cl, f.childLinks t ((ancestorsList f t n e).getD i 0) = some cl ∧
        cl.parent = (ancestorsList f t n e).getD (i + 1) 0) ∧
    (∀ a, (ancestorsList f t n e).getLast? = some a → f.childLinks t a = none) := by
  intro n
  induction n with
  | zero =>
    intro e h
    simp [ancestorsList] at h
  | succ n ih =>
    intro e h
    cases hcl : f.childLinks t e with
    | none =>
      have hz : ancestorsList f t (n + 1) e = [] := by simp [ancestorsList, hcl]
      refine ⟨fun _ => hz, ?_, ?_, ?_⟩
      · intro cl hcl2
        exact Option.noConfusion hcl2
      · intro i hi
        rw [hz] at hi
        simp at hi
      · intro a ha
        rw [hz] at ha
        simp at ha
    | some cl =>
      have hun : ancestorsList f t (n + 1) e = cl.parent :: ancestorsList f t n cl.parent := by
        simp [ancestorsList, hcl]
      rw [hun] at h ⊢
      have hlt : (ancestorsList f t n cl.parent).length < n := by
        simp only [List.length_cons] at h
        omega
      obtain ⟨ih1, ih2, ih3, ih4⟩ := ih cl.parent hlt
      refine ⟨?_, ?_, ?_, ?_⟩
      · intro h0
        exact absurd h0 (by simp)
      · intro cl2 hcl2
        injection hcl2 with hh
        subst hh
        simp
      · intro i hi
        cases i with
        | zero =>
          have htne : ancestorsList f t n cl.parent ≠ [] := by
            intro h0
            rw [h0] at hi
            simp at hi
          cases n with
          | zero => exact absurd rfl htne
          | succ m =>
            cases hcl2 : f.childLinks t cl.parent with
            | none =>
              rw [show ancestorsList f t (m + 1) cl.parent = [] by
                simp [ancestorsList, hcl2]] at htne
              exact absurd rfl htne
            | some cl2 =>
              have hun2 : ancestorsList f t (m + 1) cl.parent
                  = cl2.parent :: ancestorsList f t m cl2.parent := by
                simp [ancestorsList, hcl2]
              refine ⟨cl2, by simpa using hcl2, ?_⟩
              rw [hun2]
              simp
        | succ i2 =>
          have hi2 : i2 + 1 < (ancestorsList f t n cl.parent).length := by
            simp only [List.length_cons] at hi
            omega
          have hstep := ih3 i2 hi2
          simpa using hstep
      · intro a ha
        cases htne : ancestorsList f t n cl.parent with
        | nil =>
          rw [htne] at ha
          have haa : cl.parent = a := by simpa using ha
          subst haa
          have hn : 0 < n := by
            rw [htne] at hlt
            simpa using hlt
          cases n with
          | zero => omega
          | succ m =>
            cases hcl2 : f.childLinks t cl.parent with
            | none => rfl
            | some cl2 =>
              rw [show ancestorsList f t (m + 1) cl.parent
                  = cl2.parent :: ancestorsList f t m cl2.parent by
                simp [ancestorsList, hcl2]] at htne
              cases htne
        | cons b rest =>
          rw [htne] at ha
          have ha2 : (b :: rest).getLast? = some a := by simpa using ha
          rw [← htne] at ha2
          exact ih4 a ha2

/-- Witness for the amended C4: in the concrete chain `0 → 2 → 3 → 4` the
walk from `4` ends at the root `0`, which indeed lacks a `ChildLink`. -/
theorem C4_ancestors_order_witness : fv.childLinks true 0 = none :=
  (C4_ancestors_order fv true 10 4 (by decide)).2.2.2 0 (by decide)

/-- C4 counterexample: `ancestors(4)` in the chain `0 → 2 → 3 → 4` yields
`[3, 2, 0]` — the first root `0` (the first ancestor lacking a `ChildLink`)
IS yielded as the last element, contradicting "up to (and not including) the
first root". -/
theorem C4_counterexample :
    ancestorsList fv true 10 4 = [3, 2, 0] ∧
    fv.childLinks true 0 = none ∧ 0 ∈ ancestorsList fv true 10 4 := by decide

/-- C6: `detach` on a valid entity that has no `ChildLink` for the hierarchy
marker (a root or a never-attached entity) is a no-op success returning the
store unchanged; `detach` fails only with `NoSuchEntity`, and only when the
handle is stale/invalid, again leaving the store unchanged. -/
theorem C6_detach_noop {M : Type} [DecidableEq M] (f : Frame M) (t : M) (e : Nat) :
    (f.alive e = true → f.childLinks t e = none → detach f t e = (f, none)) ∧
    (∀ err, (detach f t e).2 = some err →
      err = .noSuchEntity ∧ f.alive e = false ∧ (detach f t e).1 = f) := by
  constructor
  · intro h1 h2
    simp [detach, h1, h2]
  · intro err
    unfold detach
    split
    · rename_i hna
      intro h
      have herr : err = HErr.noSuchEntity := by
        cases h
        rfl
      refine ⟨herr, ?_, rfl⟩
      simpa using hna
    · split
      · intro h
        exact absurd h (by simp)
      · split
        · intro h
          exact absurd h (by simp)
        · split
          · intro h
            exact absurd h (by simp)
          · intro h
            exact absurd h (by simp)

/-- Witness for C6: detaching the root `0` of the concrete store — live but
with no `ChildLink` — returns the store unchanged with no error. -/
theorem C6_detach_noop_witness : detach fv true 0 = (fv, none) :=
  (C6_detach_noop fv true 0).1 (by decide) (by decide)

/-- C7: whenever `attach(child, parent)` returns an error — `NoSuchEntity`,
`AlreadyAttached`, `CycleDetected` (or a missing-link read) — the rejection
happens before any mutation: the returned store is exactly the input store,
so no link component of any entity was created, removed or modified. -/
theorem C7_attach_atomic {M : Type} [DecidableEq M] (f : Frame M) (t : M) (c p : Nat)
    (err : HErr) (h : (attach f t c p).2 = some err) : (attach f t c p).1 = f := by
  apply attach_unchanged_of_err
  rw [h]
  simp

/-- Witness for C7: attaching the already-attached entity `1` under `0`
fails with `AlreadyAttached` and leaves the concrete store untouched. -/
theorem C7_attach_atomic_witness :
    (attach fv true 1 0).2 = some .alreadyAttached ∧ (attach fv true 1 0).1 = fv :=
  ⟨by decide, C7_attach_atomic fv true 1 0 .alreadyAttached (by decide)⟩

section MarkerLemmas

variable {M : Type} [DecidableEq M]

lemma setCL_slice {f : Frame M} {t : M} {x : Nat} {v : ChildLink} {t2 : M} (hne : t2 ≠ t) :
    (setCL f t x v).childLinks t2 = f.childLinks t2 :=
  funext fun y => by rw [setCL_lookup, if_neg (fun h => hne h.1)]

lemma removeCL_slice {f : Frame M} {t : M} {x : Nat} {t2 : M} (hne : t2 ≠ t) :
    (removeCL f t x).childLinks t2 = f.childLinks t2 :=
  funext fun y => by rw [removeCL_lookup, if_neg (fun h => hne h.1)]

lemma modifyCL_slice {f : Frame M} {t : M} {x : Nat} {g : ChildLink → ChildLink} {t2 : M}
    (hne : t2 ≠ t) : (modifyCL f t x g).childLinks t2 = f.childLinks t2 :=
  funext fun y => by rw [modifyCL_lookup, if_neg (fun h => hne h.1)]

lemma setPL_slice {f : Frame M} {t : M} {x : Nat} {v : ParentLink} {t2 : M} (hne : t2 ≠ t) :
    (setPL f t x v).parentLinks t2 = f.parentLinks t2 :=
  funext fun y => by rw [setPL_lookup, if_neg (fun h => hne h.1)]

lemma removePL_slice {f : Frame M} {t : M} {x : Nat} {t2 : M} (hne : t2 ≠ t) :
    (removePL f t x).parentLinks t2 = f.parentLinks t2 :=
  funext fun y => by rw [removePL_lookup, if_neg (fun h => hne h.1)]

/-- An `attach` under marker `t1` leaves the link components of every other
marker untouched. -/
lemma attach_slice {f : Frame M} {t1 : M} (c p : Nat) {t2 : M} (hne : t2 ≠ t1) :
    (attach f t1 c p).1.childLinks t2 = f.childLinks t2 ∧
    (attach f t1 c p).1.parentLinks t2 = f.parentLinks t2 := by
  unfold attach
  split
  · exact ⟨rfl, rfl⟩
  · split
    · exact ⟨rfl, rfl⟩
    · split
      · exact ⟨rfl, rfl⟩
      · split
        · constructor
          · rw [setPL_childLinks, setCL_slice hne]
          · rw [setPL_slice hne, setCL_parentLinks]
        · split
          · exact ⟨rfl, rfl⟩
          · constructor
            · rw [setPL_childLinks, modifyCL_slice hne, modifyCL_slice hne,
                setCL_slice hne]
            · rw [setPL_slice hne, modifyCL_parentLinks, modifyCL_parentLinks,
                setCL_parentLinks]

/-- A `detach` under marker `t1` leaves the link components of every other
marker untouched. -/
lemma detach_slice {f : Frame M} {t1 : M} (e : Nat) {t2 : M} (hne : t2 ≠ t1) :
    (detach f t1 e).1.childLinks t2 = f.childLinks t2 ∧
    (detach f t1 e).1.parentLinks t2 = f.parentLinks t2 := by
  unfold detach
  split
  · exact ⟨rfl, rfl⟩
  · split
    · exact ⟨rfl, rfl⟩
    · split
      · constructor
        · rw [removeCL_slice hne]
        · rw [removeCL_parentLinks]
      · split
        · constructor
          · rw [removePL_childLinks, removeCL_slice hne]
          · rw [removePL_slice hne, removeCL_parentLinks]
        · constructor
          · rw [removeCL_slice hne, setPL_childLinks, modifyCL_slice hne,
              modifyCL_slice hne]
          · rw [removeCL_parentLinks, setPL_slice hne, modifyCL_parentLinks,
              modifyCL_parentLinks]

/-- Destroying entities not containing `x` leaves all of `x`'s state alone. -/
lemma foldl_killE_not_mem {L : List Nat} {x : Nat} (hx : x ∉ L) :
    ∀ f : Frame M,
    (L.foldl killE f).alive x = f.alive x ∧ (L.foldl killE f).comps x = f.comps x ∧
    (∀ t, (L.foldl killE f).childLinks t x = f.childLinks t x) ∧
    (∀ t, (L.foldl killE f).parentLinks t x = f.parentLinks t x) := by
  induction L with
  | nil => intro f; exact ⟨rfl, rfl, fun _ => rfl, fun _ => rfl⟩
  | cons a rest ih =>
    intro f
    have hxa : x ≠ a := fun h => hx (h ▸ List.mem_cons_self a rest)
    have hxr : x ∉ rest := fun h => hx (List.mem_cons_of_mem a h)
    obtain ⟨i1, i2, i3, i4⟩ := ih hxr (killE f a)
    refine ⟨?_, ?_, ?_, ?_⟩
    · rw [List.foldl_cons, i1, killE_alive, if_neg hxa]
    · rw [List.foldl_cons, i2, killE_comps, if_neg hxa]
    · intro t
      rw [List.foldl_cons, i3 t, killE_childLinks, if_neg hxa]
    · intro t
      rw [List.foldl_cons, i4 t, killE_parentLinks, if_neg hxa]

/-- Once an entity is destroyed, further destruction leaves it destroyed. -/
lemma foldl_killE_dead {L : List Nat} {x : Nat} :
    ∀ f : Frame M,
    (f.alive x = false ∧ f.comps x = [] ∧
     (∀ t, f.childLinks t x = none) ∧ (∀ t, f.parentLinks t x = none)) →
    (L.foldl killE f).alive x = false ∧ (L.foldl killE f).comps x = [] ∧
    (∀ t, (L.foldl killE f).childLinks t x = none) ∧
    (∀ t, (L.foldl killE f).parentLinks t x = none) := by
  induction L with
  | nil => intro f h; exact h
  | cons a rest ih =>
    intro f h
    rw [List.foldl_cons]
    apply ih
    refine ⟨?_, ?_, ?_, ?_⟩
    · rw [killE_alive]
      split
      · rfl
      · exact h.1
    · rw [killE_comps]
      split
      · rfl
      · exact h.2.1
    · intro t
      rw [killE_childLinks]
      split
      · rfl
      · exact h.2.2.1 t
    · intro t
      rw [killE_parentLinks]
      split
      · rfl
      · exact h.2.2.2 t

/-- Every destroyed entity ends up dead with no components. -/
lemma foldl_killE_mem {L : List Nat} {x : Nat} (hx : x ∈ L) :
    ∀ f : Frame M,
    (L.foldl killE f).alive x = false ∧ (L.foldl killE f).comps x = [] ∧
    (∀ t, (L.foldl killE f).childLinks t x = none) ∧
    (∀ t, (L.foldl killE f).parentLinks t x = none) := by
  induction L with
  | nil => exact absurd hx (List.not_mem_nil x)
  | cons a rest ih =>
    intro f
    rw [List.foldl_cons]
    by_cases hxa : x = a
    · subst hxa
      apply foldl_killE_dead
      refine ⟨?_, ?_, ?_, ?_⟩
      · rw [killE_alive, if_pos rfl]
      · rw [killE_comps, if_pos rfl]
      · intro t
        rw [killE_childLinks, if_pos rfl]
      · intro t
        rw [killE_parentLinks, if_pos rfl]
    · have hxr : x ∈ rest := by
        rcases List.mem_cons.mp hx with h | h
        · exact absurd h hxa
        · exact h
      exact ih hxr (killE f a)

end MarkerLemmas

/-- C8 (amended): operations invoked with marker `T1` never modify link
components keyed by a different marker `T2` — with the one exception of
`despawn_all`, which destroys the despawned entities in the store and with
them all their components: `attach`, `attach_new` and `detach` under `T1`
leave the whole `T2` link state untouched, and `despawn_all` under `T1`
leaves the `T2` links of every non-despawned entity untouched (the `T2`
links of despawned entities are removed together with the entities). -/
theorem C8_marker_isolation {M : Type} [DecidableEq M] (f : Frame M) (t1 t2 : M)
    (hne : t2 ≠ t1) :
    (∀ c p, (attach f t1 c p).1.childLinks t2 = f.childLinks t2 ∧
            (attach f t1 c p).1.parentLinks t2 = f.parentLinks t2) ∧
    (∀ p b, (attachNew f t1 p b).1.childLinks t2 = f.childLinks t2 ∧
            (attachNew f t1 p b).1.parentLinks t2 = f.parentLinks t2) ∧
    (∀ e, (detach f t1 e).1.childLinks t2 = f.childLinks t2 ∧
          (detach f t1 e).1.parentLinks t2 = f.parentLinks t2) ∧
    (∀ e x, x ∉ e :: dfsList f t1 f.nextEntity e →
      (despawnAll f t1 e).1.childLinks t2 x = f.childLinks t2 x ∧
      (despawnAll f t1 e).1.parentLinks t2 x = f.parentLinks t2 x) := by
  refine ⟨fun c p => attach_slice c p hne, ?_, fun e => detach_slice e hne, ?_⟩
  · intro p b
    have h := attach_slice (f := (spawnE f b).2) f.nextEntity p hne
    rw [spawnE_childLinks, spawnE_parentLinks] at h
    exact h
  · intro e x hx
    unfold despawnAll
    split
    · exact ⟨rfl, rfl⟩
    · obtain ⟨_, _, k3, k4⟩ := foldl_killE_not_mem hx (detach f t1 e).1
      obtain ⟨d1, d2⟩ := detach_slice (f := f) e hne
      constructor
      · rw [k3 t2, congrFun d1 x]
      · rw [k4 t2, congrFun d2 x]

/-- Witness for the amended C8 at a concrete two-marker store. -/
theorem C8_marker_isolation_witness :
    (attach fv false 2 1).1.childLinks true = fv.childLinks true ∧
    (attach fv false 2 1).1.parentLinks true = fv.parentLinks true :=
  (C8_marker_isolation fv false true (by decide)).1 2 1

/-- C8 counterexample: `despawn_all` invoked with marker `true` destroys
entity `1` and with it the `ChildLink` keyed by marker `false`: the
`false`-hierarchy observable through `ancestors` changes. -/
theorem C8_counterexample :
    fw2.childLinks false 1 = some ⟨0, 1, 1⟩ ∧
    (despawnAll fw2 true 1).1.childLinks false 1 = none ∧
    ancestorsList fw2 false fw2.nextEntity 1 = [0] ∧
    ancestorsList (despawnAll fw2 true 1).1 false
      (despawnAll fw2 true 1).1.nextEntity 1 = [] := by decide

section DetachLemmas

variable {M : Type} [DecidableEq M]

lemma cyc_mod {cs : List Nat} {x : Nat} : cyc cs (x % cs.length) = cyc cs x := by
  unfold cyc
  rw [Nat.mod_mod]

/-- Successful detach of the only child: both link components are removed. -/
lemma detach_ok_small {f : Frame M} {t : M} {e : Nat} {cl : ChildLink} {pl : ParentLink}
    (hal : f.alive e = true) (hcl : f.childLinks t e = some cl)
    (hpl : f.parentLinks t cl.parent = some pl) (hsmall : pl.numChildren ≤ 1) :
    detach f t e = (removePL (removeCL f t e) t cl.parent, none) := by
  simp [detach, hal, hcl, hpl, hsmall]

/-- Successful detach from a ring of at least two: unlink and rewire. -/
lemma detach_ok_big {f : Frame M} {t : M} {e : Nat} {cl : ChildLink} {pl : ParentLink}
    (hal : f.alive e = true) (hcl : f.childLinks t e = some cl)
    (hpl : f.parentLinks t cl.parent = some pl) (hbig : ¬ pl.numChildren ≤ 1) :
    detach f t e =
      (removeCL
        (setPL
          (modifyCL (modifyCL f t cl.prev (fun l => { l with next := cl.next })) t cl.next
            (fun l => { l with prev := cl.prev }))
          t cl.parent
          ⟨if pl.firstChild = e then cl.next else pl.firstChild, pl.numChildren - 1⟩)
        t e, none) := by
  simp [detach, hal, hcl, hpl, hbig]

lemma detach_alive (f : Frame M) (t : M) (e : Nat) : (detach f t e).1.alive = f.alive := by
  unfold detach
  split
  · rfl
  · split
    · rfl
    · split
      · rfl
      · split
        · rfl
        · rfl

lemma detach_comps (f : Frame M) (t : M) (e : Nat) : (detach f t e).1.comps = f.comps := by
  unfold detach
  split
  · rfl
  · split
    · rfl
    · split
      · rfl
      · split
        · rfl
        · rfl

lemma detach_nextEntity (f : Frame M) (t : M) (e : Nat) :
    (detach f t e).1.nextEntity = f.nextEntity := by
  unfold detach
  split
  · rfl
  · split
    · rfl
    · split
      · rfl
      · split
        · rfl
        · rfl

/-- Detach modifies the `ParentLink` of no entity other than the parent of
the detached entity. -/
lemma detach_parentLinks_other {f : Frame M} {t : M} {e x : Nat}
    (hx : ∀ cl, f.childLinks t e = some cl → x ≠ cl.parent) :
    ∀ t2, (detach f t e).1.parentLinks t2 x = f.parentLinks t2 x := by
  intro t2
  unfold detach
  split
  · rfl
  · split
    · rfl
    · rename_i cl heq
      split
      · rw [removeCL_parentLinks]
      · split
        · rw [removePL_lookup, if_neg (fun h => hx cl heq h.2), removeCL_parentLinks]
        · rw [removeCL_parentLinks, setPL_lookup, if_neg (fun h => hx cl heq h.2),
            modifyCL_parentLinks, modifyCL_parentLinks]

/-- Detach modifies the `ChildLink` of no entity other than the detached
entity and its two ring neighbours. -/
lemma detach_childLinks_other {f : Frame M} {t : M} {e x : Nat}
    (hxe : x ≠ e)
    (hx : ∀ cl, f.childLinks t e = some cl → x ≠ cl.prev ∧ x ≠ cl.next) :
    ∀ t2, (detach f t e).1.childLinks t2 x = f.childLinks t2 x := by
  intro t2
  unfold detach
  split
  · rfl
  · split
    · rfl
    · rename_i cl heq
      split
      · rw [removeCL_lookup, if_neg (fun h => hxe h.2)]
      · split
        · rw [removePL_childLinks, removeCL_lookup, if_neg (fun h => hxe h.2)]
        · rw [removeCL_lookup, if_neg (fun h => hxe h.2), setPL_childLinks,
            modifyCL_lookup, if_neg (fun h => (hx cl heq).2 h.2),
            modifyCL_lookup, if_neg (fun h => (hx cl heq).1 h.2)]

/-- Detaching a ring member leaves exactly the ring with that member
removed as the parent's sibling list. -/
lemma detach_ring_children {f : Frame M} {t : M} {P e : Nat} {cs : List Nat} {j : Nat}
    (hal : f.alive e = true) (hr : ringInv f t P cs) (hj : j < cs.length)
    (hej : cyc cs j = e) :
    childrenList (detach f t e).1 t P = cs.eraseIdx j := by
  obtain ⟨hne, hpl, hnd, hlink⟩ := hr
  have hl : 0 < cs.length := List.length_pos.mpr hne
  have hcl : f.childLinks t e = some ⟨P, cyc cs (j + 1), cyc cs (j + cs.length - 1)⟩ := by
    rw [← hej]
    exact hlink j hj
  by_cases h1 : cs.length = 1
  · have hj0 : j = 0 := by omega
    subst hj0
    obtain ⟨a, rfl⟩ := List.length_eq_one.mp h1
    have hsm := detach_ok_small hal hcl hpl (by simp)
    rw [hsm]
    unfold childrenList
    rw [removePL_lookup, if_pos ⟨rfl, rfl⟩]
    rfl
  · have h2 : 2 ≤ cs.length := by omega
    have hjm : (j + cs.length - 1) % cs.length < cs.length := Nat.mod_lt _ hl
    have hPr : cyc cs (j + cs.length - 1) = cyc cs ((j + cs.length - 1) % cs.length) :=
      cyc_mod.symm
    have hbg := detach_ok_big hal hcl hpl (by simp; omega)
    rw [hbg]
    have hinj : ∀ a b, a < cs.length → b < cs.length → cyc cs a = cyc cs b → a = b :=
      fun a b ha hb h => cyc_inj hnd ha hb h
    unfold childrenList
    rw [removeCL_parentLinks, setPL_lookup, if_pos ⟨rfl, rfl⟩]
    have hlen : (cs.eraseIdx j).length = cs.length - 1 := by
      rw [List.length_eraseIdx]
      simp [hj]
    have hlne : cs.eraseIdx j ≠ [] := by
      intro h0
      rw [h0] at hlen
      simp at hlen
      omega
    have hgetD : ∀ i, i < cs.length - 1 →
        (cs.eraseIdx j).getD i 0 = cyc cs (if i < j then i else i + 1) := by
      intro i hi
      have hi2 : i < (cs.eraseIdx j).length := by omega
      rw [List.getD_eq_getElem _ 0 hi2]
      by_cases hij : i < j
      · rw [List.getElem_eraseIdx_of_lt cs j i hi2 hij, if_pos hij]
        exact (cyc_getElem (show i < cs.length by omega)).symm
      · rw [List.getElem_eraseIdx_of_ge cs j i hi2 (by omega), if_neg hij]
        exact (cyc_getElem (show i + 1 < cs.length by omega)).symm
    have hval : ∀ k, k < cs.length → k ≠ j →
        ∃ cl2,
          (removeCL
            (setPL
              (modifyCL (modifyCL f t (cyc cs (j + cs.length - 1))
                  (fun l => { l with next := cyc cs (j + 1) })) t (cyc cs (j + 1))
                (fun l => { l with prev := cyc cs (j + cs.length - 1) }))
              t P
              ⟨if cyc cs 0 = e then cyc cs (j + 1) else cyc cs 0, cs.length - 1⟩)
            t e).childLinks t (cyc cs k) = some cl2 ∧
          (k ≠ (j + cs.length - 1) % cs.length → cl2.next = cyc cs (k + 1)) ∧
          (k = (j + cs.length - 1) % cs.length → cl2.next = cyc cs (j + 1)) := by
      intro k hk hkj
      have hke : cyc cs k ≠ e := by
        rw [← hej]
        intro h
        exact hkj (hinj k j hk hj h)
      rw [removeCL_lookup, if_neg (fun h => hke h.2), setPL_childLinks]
      by_cases hkN : cyc cs k = cyc cs (j + 1)
      · rw [modifyCL_lookup, if_pos ⟨rfl, hkN⟩]
        by_cases hkP : cyc cs k = cyc cs (j + cs.length - 1)
        · rw [modifyCL_lookup, if_pos ⟨rfl, hkP⟩, hlink k hk]
          refine ⟨_, rfl, ?_, ?_⟩
          · intro hknm
            rw [hPr] at hkP
            exact absurd (hinj k _ hk hjm hkP) hknm
          · intro _
            rfl
        · rw [modifyCL_lookup, if_neg (fun h => hkP h.2), hlink k hk]
          refine ⟨_, rfl, ?_, ?_⟩
          · intro _
            rfl
          · intro hkm
            subst hkm
            exact absurd hPr.symm hkP
      · rw [modifyCL_lookup, if_neg (fun h => hkN h.2)]
        by_cases hkP : cyc cs k = cyc cs (j + cs.length - 1)
        · rw [modifyCL_lookup, if_pos ⟨rfl, hkP⟩, hlink k hk]
          refine ⟨_, rfl, ?_, ?_⟩
          · intro hknm
            rw [hPr] at hkP
            exact absurd (hinj k _ hk hjm hkP) hknm
          · intro _
            rfl
        · rw [modifyCL_lookup, if_neg (fun h => hkP h.2), hlink k hk]
          refine ⟨_, rfl, ?_, ?_⟩
          · intro _
            rfl
          · intro hkm
            subst hkm
            exact absurd hPr.symm hkP
    have hjm1 : 1 ≤ j → (j + cs.length - 1) % cs.length = j - 1 := by
      intro hj1
      rw [show j + cs.length - 1 = (j - 1) + cs.length by omega, Nat.add_mod_right]
      exact Nat.mod_eq_of_lt (by omega)
    have hjm0 : j = 0 → (j + cs.length - 1) % cs.length = cs.length - 1 := by
      intro hj0
      subst hj0
      rw [show 0 + cs.length - 1 = cs.length - 1 by omega]
      exact Nat.mod_eq_of_lt (by omega)
    have hsucc : ∀ i, i + 1 < (cs.eraseIdx j).length →
        ∃ cl2,
          (removeCL
            (setPL
              (modifyCL (modifyCL f t (cyc cs (j + cs.length - 1))
                  (fun l => { l with next := cyc cs (j + 1) })) t (cyc cs (j + 1))
                (fun l => { l with prev := cyc cs (j + cs.length - 1) }))
              t P
              ⟨if cyc cs 0 = e then cyc cs (j + 1) else cyc cs 0, cs.length - 1⟩)
            t e).childLinks t ((cs.eraseIdx j).getD i 0) = some cl2 ∧
          cl2.next = (cs.eraseIdx j).getD (i + 1) 0 := by
      intro i hi
      rw [hlen] at hi
      rw [hgetD i (by omega), hgetD (i + 1) (by omega)]
      by_cases hAij : i + 1 < j
      · rw [if_pos (show i < j by omega), if_pos hAij]
        obtain ⟨cl2, hv, hv1, _⟩ := hval i (by omega) (by omega)
        refine ⟨cl2, hv, ?_⟩
        apply hv1
        rw [hjm1 (show 1 ≤ j by omega)]
        omega
      · by_cases hBij : i + 1 = j
        · rw [if_pos (show i < j by omega), if_neg (show ¬ i + 1 < j by omega)]
          obtain ⟨cl2, hv, _, hv2⟩ := hval i (by omega) (by omega)
          refine ⟨cl2, hv, ?_⟩
          have hijm : i = (j + cs.length - 1) % cs.length := by
            rw [hjm1 (show 1 ≤ j by omega)]
            omega
          rw [hv2 hijm]
          exact congrArg (cyc cs) (by omega)
        · rw [if_neg (show ¬ i < j by omega), if_neg (show ¬ i + 1 < j by omega)]
          obtain ⟨cl2, hv, hv1, _⟩ := hval (i + 1) (by omega) (by omega)
          refine ⟨cl2, hv, ?_⟩
          apply hv1
          by_cases hj0 : j = 0
          · rw [hjm0 hj0]
            omega
          · rw [hjm1 (show 1 ≤ j by omega)]
            omega
    have hhead : (if cyc cs 0 = e then cyc cs (j + 1) else cyc cs 0)
        = (cs.eraseIdx j).getD 0 0 := by
      rw [hgetD 0 (by omega)]
      by_cases hj0 : j = 0
      · subst hj0
        rw [if_pos hej, if_neg (by omega)]
      · rw [if_neg ?_, if_pos (by omega)]
        intro h0
        rw [← hej] at h0
        exact hj0 (hinj 0 j hl hj h0).symm
    have hmain := childrenAux_eq_of_succ _ t (cs.eraseIdx j) hlne hsucc
    rw [hlen, ← hhead] at hmain
    exact hmain

end DetachLemmas

section DespawnLemmas

variable {M : Type} [DecidableEq M]

/-- Every entity on a descent chain is a depth-first descendant. -/
lemma chain_mem_dfs {f : Frame M} {t : M} : ∀ (l : List Nat) (r n : Nat),
    chainB f t r l = true → l.length ≤ n → ∀ w ∈ l, w ∈ dfsList f t n r := by
  intro l
  induction l with
  | nil =>
    intro r n _ _ w hw
    simp at hw
  | cons c rest ih =>
    intro r n hch hlen w hw
    cases n with
    | zero => simp at hlen
    | succ m =>
      simp only [chainB, Bool.and_eq_true, List.elem_iff] at hch
      obtain ⟨hc, hch2⟩ := hch
      rcases List.mem_cons.mp hw with rfl | hw2
      · exact List.mem_flatMap.mpr ⟨w, hc, by simp⟩
      · have hmem := ih c m hch2 (by simp at hlen; omega) w hw2
        exact List.mem_flatMap.mpr ⟨c, hc, by simp [hmem]⟩

/-- The last entity of a descent chain is a direct child of the chain's
second-to-last entity (or of the chain root). -/
lemma chainB_last_parent {f : Frame M} {t : M} : ∀ (l : List Nat) (r w : Nat),
    chainB f t r l = true → l.getLast? = some w →
    ∃ d, w ∈ childrenList f t d ∧ (d = r ∨ d ∈ l) := by
  intro l
  induction l with
  | nil =>
    intro r w _ hlast
    simp at hlast
  | cons c rest ih =>
    intro r w hch hlast
    simp only [chainB, Bool.and_eq_true, List.elem_iff] at hch
    obtain ⟨hc, hch2⟩ := hch
    cases rest with
    | nil =>
      have hcw : c = w := by simpa using hlast
      subst hcw
      exact ⟨r, hc, Or.inl rfl⟩
    | cons b rest2 =>
      have hlast2 : (b :: rest2).getLast? = some w := by simpa using hlast
      obtain ⟨d, hwch, hd⟩ := ih c w hch2 hlast2
      rcases hd with rfl | hdl
      · exact ⟨d, hwch, Or.inr (by simp)⟩
      · exact ⟨d, hwch, Or.inr (by simp [hdl])⟩

/-- Members of `eraseIdx` are members of the original list distinct from the
erased element (given no duplicates). -/
lemma mem_eraseIdx_of_nodup {cs : List Nat} (hnd : cs.Nodup) {j : Nat} (hj : j < cs.length) :
    ∀ m ∈ cs.eraseIdx j, m ∈ cs ∧ m ≠ cs[j] := by
  intro m hm
  obtain ⟨i, hi, rfl⟩ := List.getElem_of_mem hm
  by_cases hij : i < j
  · rw [List.getElem_eraseIdx_of_lt cs j i hi hij]
    refine ⟨List.getElem_mem _, ?_⟩
    intro h
    have := (List.Nodup.getElem_inj_iff hnd).mp h
    omega
  · have hi1 : i + 1 < cs.length := by
      have h0 := hi
      rw [List.length_eraseIdx] at h0
      simp [hj] at h0
      omega
    rw [List.getElem_eraseIdx_of_ge cs j i hi (by omega)]
    refine ⟨List.getElem_mem _, ?_⟩
    intro h
    have := (List.Nodup.getElem_inj_iff hnd).mp h
    omega

end DespawnLemmas

/-- C5: `despawn_all(e)` removes `e` and its entire depth-first subtree from
both the hierarchy and the store: the call succeeds, every store access
through a despawned handle afterwards fails with `NoSuchEntity`, every other
entity's liveness and payload are unaffected, and the depth-first
descendants of any surviving entity exclude the whole despawned subtree. -/
theorem C5_despawn_subtree {M : Type} [DecidableEq M] (f : Frame M) (t : M) (e : Nat)
    (hb : blankAbove f) (hbl : boundedLinks f) (hal : f.alive e = true)
    (hW2 : ∀ q, q < f.nextEntity → ∀ w ∈ childrenList f t q,
      (f.childLinks t w).map ChildLink.parent = some q)
    (hclosed : ∀ d ∈ collectList f t e, ∀ w ∈ childrenList f t d, w ∈ collectList f t e)
    (hparent : ∀ q, q < f.nextEntity →
      (f.childLinks t e).map ChildLink.parent = some q →
      q ∉ collectList f t e ∧ ringInv f t q (childrenList f t q) ∧
        e ∈ childrenList f t q) :
    (despawnAll f t e).2 = none ∧
    (∀ d ∈ collectList f t e,
      getComps (despawnAll f t e).1 d = .error .noSuchEntity) ∧
    (∀ x, x ∉ collectList f t e →
      (despawnAll f t e).1.alive x = f.alive x ∧
      (despawnAll f t e).1.comps x = f.comps x) ∧
    (∀ root, root ∉ collectList f t e → ∀ m d, d ∈ collectList f t e →
      d ∉ dfsList (despawnAll f t e).1 t m root) := by
  have hda : despawnAll f t e = ((collectList f t e).foldl killE (detach f t e).1, none) := by
    simp [despawnAll, hal, collectList]
  rw [hda]
  refine ⟨rfl, ?_, ?_, ?_⟩
  · intro d hd
    obtain ⟨k1, _, _, _⟩ := foldl_killE_mem hd (detach f t e).1
    simp [getComps, k1]
  · intro x hx
    obtain ⟨k1, k2, _, _⟩ := foldl_killE_not_mem hx (detach f t e).1
    constructor
    · rw [k1, congrFun (detach_alive f t e) x]
    · rw [k2, congrFun (detach_comps f t e) x]
  · have hW2full : ∀ q w, w ∈ childrenList f t q →
        (f.childLinks t w).map ChildLink.parent = some q := by
      intro q w hw
      by_cases hq : q < f.nextEntity
      · exact hW2 q hq w hw
      · exfalso
        have hpl := (hb q (by omega)).2.2.2 t
        unfold childrenList at hw
        rw [hpl] at hw
        simp at hw
    have hUniq : ∀ w q1 q2, w ∈ childrenList f t q1 → w ∈ childrenList f t q2 →
        q1 = q2 := by
      intro w q1 q2 h1 h2
      have e1 := hW2full q1 w h1
      have e2 := hW2full q2 w h2
      rw [e1] at e2
      exact Option.some_inj.mp e2
    have hColStep : ∀ w, w ∈ collectList f t e → w ≠ e →
        ∃ d2, d2 ∈ collectList f t e ∧ w ∈ childrenList f t d2 := by
      intro w hw hwe
      have hwdfs : w ∈ dfsList f t f.nextEntity e := by
        rcases List.mem_cons.mp hw with h | h
        · exact absurd h hwe
        · exact h
      obtain ⟨l, hch, hlne, hlast, hlen⟩ := (mem_dfsList _ _ _).mp hwdfs
      obtain ⟨d2, hwch, hd2⟩ := chainB_last_parent l e w hch hlast
      rcases hd2 with rfl | hdl
      · exact ⟨d2, by simp [collectList], hwch⟩
      · have hmem := chain_mem_dfs l e f.nextEntity hch hlen d2 hdl
        exact ⟨d2, by simp [collectList, hmem], hwch⟩
    have hNotColNe : ∀ x w, x ∉ collectList f t e → w ∈ childrenList f t x → w ≠ e →
        w ∉ collectList f t e := by
      intro x w hx hw hwe hwcol
      obtain ⟨d2, hd2col, hwch⟩ := hColStep w hwcol hwe
      exact hx (hUniq w x d2 hw hwch ▸ hd2col)
    have hKEY : ∀ x, x ∉ collectList f t e →
        ∀ w ∈ childrenList ((collectList f t e).foldl killE (detach f t e).1) t x,
          w ∉ collectList f t e := by
      intro x hx
      cases hE : f.childLinks t e with
      | none =>
        have hdet : detach f t e = (f, none) := by simp [detach, hal, hE]
        have hmm : ∀ m ∈ childrenList f t x, m ∉ collectList f t e ∧ m ≠ e := by
          intro m hm
          have hme : m ≠ e := by
            intro h
            subst h
            have hmap := hW2full x m hm
            rw [hE] at hmap
            simp at hmap
          exact ⟨hNotColNe x m hx hm hme, hme⟩
        have hcong : childrenList ((collectList f t e).foldl killE (detach f t e).1) t x
            = childrenList f t x := by
          rw [hdet]
          show childrenList ((collectList f t e).foldl killE f) t x = childrenList f t x
          apply childrenList_congr
          · exact (foldl_killE_not_mem hx f).2.2.2 t
          · intro w hw
            exact (foldl_killE_not_mem ((hmm w hw).1) f).2.2.1 t
        intro w hw
        rw [hcong] at hw
        exact (hmm w hw).1
      | some cl =>
        have hclP : (f.childLinks t e).map ChildLink.parent = some cl.parent := by
          rw [hE]
          rfl
        have hPlt : cl.parent < f.nextEntity := ((hbl t e).1 cl hE).1
        obtain ⟨hPcol, hr, hePmem⟩ := hparent cl.parent hPlt hclP
        obtain ⟨j, hj, hje⟩ := List.getElem_of_mem hePmem
        have hcyc : cyc (childrenList f t cl.parent) j = e := by
          rw [cyc_getElem hj, hje]
        have hring := detach_ring_children hal hr hj hcyc
        have hnd : (childrenList f t cl.parent).Nodup := hr.2.2.1
        have hlk := hr.2.2.2 j hj
        rw [hcyc, hE] at hlk
        have hcl2 := Option.some_inj.mp hlk
        have hprevmem : cl.prev ∈ childrenList f t cl.parent := by
          rw [hcl2]
          exact cyc_mem hr.1 _
        have hnextmem : cl.next ∈ childrenList f t cl.parent := by
          rw [hcl2]
          exact cyc_mem hr.1 _
        by_cases hxP : x = cl.parent
        · subst hxP
          have hmm : ∀ m ∈ (childrenList f t cl.parent).eraseIdx j,
              m ∉ collectList f t e := by
            intro m hm
            obtain ⟨hmcs, hmne⟩ := mem_eraseIdx_of_nodup hnd hj m hm
            rw [hje] at hmne
            exact hNotColNe cl.parent m hx hmcs hmne
          have hcong : childrenList ((collectList f t e).foldl killE (detach f t e).1) t
                cl.parent
              = childrenList (detach f t e).1 t cl.parent := by
            apply childrenList_congr
            · exact (foldl_killE_not_mem hx _).2.2.2 t
            · intro w hw
              rw [hring] at hw
              exact (foldl_killE_not_mem (hmm w hw) _).2.2.1 t
          intro w hw
          rw [hcong, hring] at hw
          exact hmm w hw
        · have hmm : ∀ m ∈ childrenList f t x,
              m ∉ collectList f t e ∧ m ≠ e ∧ m ≠ cl.prev ∧ m ≠ cl.next := by
            intro m hm
            have hme : m ≠ e := by
              intro h
              subst h
              exact hxP (hUniq m x cl.parent hm hePmem)
            refine ⟨hNotColNe x m hx hm hme, hme, ?_, ?_⟩
            · intro h
              subst h
              exact hxP (hUniq cl.prev x cl.parent hm hprevmem)
            · intro h
              subst h
              exact hxP (hUniq cl.next x cl.parent hm hnextmem)
          have hdetp : (detach f t e).1.parentLinks t x = f.parentLinks t x := by
            refine detach_parentLinks_other ?_ t
            intro cl2 hcl2x
            rw [hE] at hcl2x
            have h5 : cl = cl2 := Option.some_inj.mp hcl2x
            rw [← h5]
            exact hxP
          have hcong : childrenList ((collectList f t e).foldl killE (detach f t e).1) t x
              = childrenList f t x := by
            apply childrenList_congr
            · rw [(foldl_killE_not_mem hx _).2.2.2 t, hdetp]
            · intro w hw
              have h4 := hmm w hw
              rw [(foldl_killE_not_mem h4.1 _).2.2.1 t]
              refine detach_childLinks_other h4.2.1 ?_ t
              intro cl2 hcl2x
              rw [hE] at hcl2x
              have h5 : cl = cl2 := Option.some_inj.mp hcl2x
              rw [← h5]
              exact ⟨h4.2.2.1, h4.2.2.2⟩
          intro w hw
          rw [hcong] at hw
          exact (hmm w hw).1
    have hchain : ∀ l x, x ∉ collectList f t e →
        chainB ((collectList f t e).foldl killE (detach f t e).1) t x l = true →
        ∀ w ∈ l, w ∉ collectList f t e := by
      intro l
      induction l with
      | nil =>
        intro x _ _ w hw
        simp at hw
      | cons c rest ih =>
        intro x hx hch w hw
        simp only [chainB, Bool.and_eq_true, List.elem_iff] at hch
        obtain ⟨hc, hch2⟩ := hch
        have hcnot := hKEY x hx c hc
        rcases List.mem_cons.mp hw with rfl | hw2
        · exact hcnot
        · exact ih c hcnot hch2 w hw2
    intro root hroot m d hd hdIn
    obtain ⟨l, hch, hlne, hlast, _⟩ := (mem_dfsList _ _ _).mp hdIn
    have hdl : d ∈ l := List.mem_of_mem_getLast? hlast
    exact hchain l root hroot hch d hdl hd

section InvPreservation

variable {M : Type} [DecidableEq M]

/-- A successful or failed `attach` preserves the two store invariants. -/
lemma attach_preserves_inv (f : Frame M) (t : M) (c p : Nat)
    (hb : blankAbove f) (hbl : boundedLinks f) :
    blankAbove (attach f t c p).1 ∧ boundedLinks (attach f t c p).1 := by
  unfold attach
  split
  · exact ⟨hb, hbl⟩
  · rename_i halv
    have hcp : f.alive c = true ∧ f.alive p = true := by
      have h := Decidable.not_not.mp halv
      exact ⟨h.1, h.2⟩
    have hclt : c < f.nextEntity := alive_lt_of_blank hb hcp.1
    have hplt : p < f.nextEntity := alive_lt_of_blank hb hcp.2
    split
    · exact ⟨hb, hbl⟩
    · split
      · exact ⟨hb, hbl⟩
      · split
        · constructor
          · exact blankAbove_setPL (blankAbove_setCL hb (by omega))
              (by simp only [setCL_nextEntity]; omega)
          · exact boundedLinks_setPL (boundedLinks_setCL hbl (by exact ⟨hplt, hclt, hclt⟩))
              (by simp only [setCL_nextEntity]; omega)
        · rename_i pl hpl
          split
          · exact ⟨hb, hbl⟩
          · rename_i clF hclF
            have hfirst : pl.firstChild < f.nextEntity := (hbl t p).2 pl hpl
            have hlast : clF.prev < f.nextEntity := ((hbl t pl.firstChild).1 clF hclF).2.2
            constructor
            · refine blankAbove_setPL
                (blankAbove_modifyCL (blankAbove_modifyCL (blankAbove_setCL hb ?_))) ?_
              · omega
              · simp only [modifyCL_nextEntity, setCL_nextEntity]
                omega
            · refine boundedLinks_setPL
                (boundedLinks_modifyCL (boundedLinks_modifyCL
                  (boundedLinks_setCL hbl ?_) ?_) ?_) ?_
              · exact ⟨hplt, hfirst, hlast⟩
              · intro cl2 hcl2
                refine ⟨hcl2.1, ?_, hcl2.2.2⟩
                simp only [setCL_nextEntity]
                omega
              · intro cl2 hcl2
                refine ⟨hcl2.1, hcl2.2.1, ?_⟩
                simp only [modifyCL_nextEntity, setCL_nextEntity]
                omega
              · simp only [modifyCL_nextEntity, setCL_nextEntity]
                omega

/-- `attach_new` preserves the two store invariants. -/
lemma attachNew_preserves_inv (f : Frame M) (t : M) (p : Nat) (b : List Nat)
    (hb : blankAbove f) (hbl : boundedLinks f) :
    blankAbove (attachNew f t p b).1 ∧ boundedLinks (attachNew f t p b).1 :=
  attach_preserves_inv (spawnE f b).2 t f.nextEntity p
    (blankAbove_spawnE hb b) (boundedLinks_spawnE hbl b)

end InvPreservation

lemma fd_inv : blankAbove fd ∧ boundedLinks fd := by
  have h0 := blankAbove_spawnE (blankAbove_empty (M := Bool)) []
  have h0b := boundedLinks_spawnE (boundedLinks_empty (M := Bool)) []
  have h1 := attachNew_preserves_inv _ true 0 [] h0 h0b
  have h2 := attachNew_preserves_inv _ true 0 [] h1.1 h1.2
  have h3 := attachNew_preserves_inv _ true 2 [] h2.1 h2.2
  have h4 := attachNew_preserves_inv _ true 0 [] h3.1 h3.2
  have h5 := attachNew_preserves_inv _ true 0 [] h4.1 h4.2
  exact h5

/-- Witness for C5 at the concrete `despawn` tree: despawning `2` removes
`2` and `3`; a store access through `3` fails with `NoSuchEntity`, the root's
depth-first descendants no longer contain `3`, and equal `[1, 4, 5]`. -/
theorem C5_despawn_subtree_witness :
    getComps (despawnAll fd true 2).1 3 = .error .noSuchEntity ∧
    3 ∉ dfsList (despawnAll fd true 2).1 true 6 0 ∧
    dfsList (despawnAll fd true 2).1 true 6 0 = [1, 4, 5] := by
  have h := C5_despawn_subtree fd true 2 fd_inv.1 fd_inv.2 (by decide) (by decide)
    (by decide) (by decide)
  exact ⟨h.2.1 3 (by decide), h.2.2.2 0 (by decide) 6 3 (by decide), by decide⟩

section BuilderEquiv

variable {M : Type} [DecidableEq M]

lemma spawnI_mk (t : M) (b : List Nat) (cs : List TB) (f : Frame M) :
    spawnI t (.mk b none cs) f =
      (f.nextEntity,
       spawnIList t cs f.nextEntity
         (insertE { f with nextEntity := f.nextEntity + 1 } f.nextEntity b).1) := rfl

lemma spawnI_mk_cached (t : M) (b : List Nat) (e : Nat) (cs : List TB) (f : Frame M) :
    spawnI t (.mk b (some e) cs) f =
      (e, spawnIList t cs e (insertE f e b).1) := rfl

lemma spawnIList_cons (t : M) (c : TB) (rest : List TB) (p : Nat) (f : Frame M) :
    spawnIList t (c :: rest) p f =
      spawnIList t rest p (attach (spawnI t c f).2 t (spawnI t c f).1 p).1 := rfl

lemma spawnD_mk (t : M) (b : List Nat) (cs : List TB) (f : Frame M) :
    spawnD t (.mk b none cs) f =
      (f.nextEntity,
       (spawnDList t cs f.nextEntity { f with nextEntity := f.nextEntity + 1 }).1,
       .cinsert f.nextEntity b ::
         (spawnDList t cs f.nextEntity { f with nextEntity := f.nextEntity + 1 }).2) := rfl

lemma spawnDList_cons (t : M) (c : TB) (rest : List TB) (p : Nat) (f : Frame M) :
    spawnDList t (c :: rest) p f =
      ((spawnDList t rest p (spawnD t c f).2.1).1,
       (spawnD t c f).2.2 ++
         (.cattach t (spawnD t c f).1 p :: (spawnDList t rest p (spawnD t c f).2.1).2)) := rfl

lemma execCmds_append (l1 l2 : List (Cmd M)) (f : Frame M) :
    execCmds (l1 ++ l2) f = execCmds l2 (execCmds l1 f) := by
  simp [execCmds, List.foldl_append]

lemma execCmds_cons (c : Cmd M) (l : List (Cmd M)) (f : Frame M) :
    execCmds (c :: l) f = execCmds l (execCmd f c) := rfl

lemma insertE_ok {f : Frame M} {e : Nat} (b : List Nat) (h : e < f.nextEntity) :
    insertE f e b =
      ({ f with
         alive := fun x => if x = e then true else f.alive x
         comps := fun x => if x = e then b ++ f.comps x else f.comps x }, none) := by
  simp [insertE, h]

lemma TBcount_pos (tb : TB) : 1 ≤ TBcount tb := by
  match tb with
  | .mk b r cs => simp [TBcount]

lemma TBcountL_cons (c : TB) (rest : List TB) :
    TBcountL (c :: rest) = TBcount c + TBcountL rest := rfl

lemma TBcount_mk (b : List Nat) (r : Option Nat) (cs : List TB) :
    TBcount (.mk b r cs) = 1 + TBcountL cs := rfl

lemma unchElem_refl (f : Frame M) (x : Nat) : unchElem f f x :=
  ⟨rfl, rfl, fun _ => rfl, fun _ => rfl⟩

lemma unchElem_trans {h g f : Frame M} {x : Nat}
    (h1 : unchElem h g x) (h2 : unchElem g f x) : unchElem h f x :=
  ⟨h1.1.trans h2.1, h1.2.1.trans h2.2.1,
   fun t => (h1.2.2.1 t).trans (h2.2.2.1 t),
   fun t => (h1.2.2.2 t).trans (h2.2.2.2 t)⟩

/-- Blankness above the watermark transfers along an entity-wise effect
bound: whatever lies at or above the (possibly larger) new watermark was
untouched. -/
lemma blankAbove_of_effect {g2 g : Frame M} (hb : blankAbove g)
    (hn : g.nextEntity ≤ g2.nextEntity)
    (heff : ∀ x, g2.nextEntity ≤ x → unchElem g2 g x) : blankAbove g2 := by
  intro e he
  obtain ⟨e1, e2, e3, e4⟩ := heff e he
  obtain ⟨b1, b2, b3, b4⟩ := hb e (by omega)
  exact ⟨e1.trans b1, e2.trans b2, fun t => (e3 t).trans (b3 t),
    fun t => (e4 t).trans (b4 t)⟩

/-- A sibling-ring statement only reads the parent's `ParentLink` and the
members' `ChildLink`s, so it transfers between stores agreeing there. -/
lemma ringAt_congr {g2 g : Frame M} {t : M} {p : Nat} {rs : List Nat}
    (hr : ringAt g t p rs)
    (hp : g2.parentLinks t p = g.parentLinks t p)
    (hm : ∀ m ∈ rs, g2.childLinks t m = g.childLinks t m) :
    ringAt g2 t p rs := by
  rcases hr with ⟨hrs, hpl⟩ | ⟨hne, hpl, hnd, hlink⟩
  · exact Or.inl ⟨hrs, hp.trans hpl⟩
  · refine Or.inr ⟨hne, hp.trans hpl, hnd, fun i hi => ?_⟩
    rw [hm _ (cyc_mem hne i)]
    exact hlink i hi

lemma attach_err_notalive {f : Frame M} {t : M} {c p : Nat}
    (h : ¬ (f.alive c = true ∧ f.alive p = true)) :
    attach f t c p = (f, some .noSuchEntity) := by
  unfold attach
  rw [if_pos h]

lemma attach_err_already {f : Frame M} {t : M} {c p : Nat}
    (h1 : f.alive c = true) (h2 : f.alive p = true)
    (h : (f.childLinks t c).isSome = true) :
    attach f t c p = (f, some .alreadyAttached) := by
  simp [attach, h1, h2, h]

lemma attach_err_cycle {f : Frame M} {t : M} {c p : Nat}
    (h1 : f.alive c = true) (h2 : f.alive p = true)
    (h3 : f.childLinks t c = none) (h4 : cycleCheck f t c p = true) :
    attach f t c p = (f, some .cycleDetected) := by
  simp [attach, h1, h2, h3, h4]

lemma attach_err_missing {f : Frame M} {t : M} {c p : Nat} {pl : ParentLink}
    (h1 : f.alive c = true) (h2 : f.alive p = true)
    (h3 : f.childLinks t c = none) (h4 : cycleCheck f t c p = false)
    (h5 : f.parentLinks t p = some pl) (h6 : f.childLinks t pl.firstChild = none) :
    attach f t c p = (f, some .missingComponent) := by
  simp [attach, h1, h2, h3, h4, h5, h6]

end BuilderEquiv

section BuilderEquivAttach

variable {M : Type} [DecidableEq M]

/-- Attaching a live, link-free entity under a live parent that is itself a
root (no `ChildLink`) with sibling ring `rs` always succeeds: it appends the
child as the new last sibling and leaves every other entity's observable
state untouched. -/
lemma attach_ring_step {f : Frame M} {t : M} {c p : Nat} {rs : List Nat}
    (halc : f.alive c = true) (halp : f.alive p = true)
    (hclc : f.childLinks t c = none) (hclp : f.childLinks t p = none)
    (hcp : c ≠ p) (hring : ringAt f t p rs)
    (hcnot : c ∉ rs) (hpnot : p ∉ rs) :
    (attach f t c p).2 = none ∧
    (attach f t c p).1.nextEntity = f.nextEntity ∧
    (attach f t c p).1.alive = f.alive ∧
    (attach f t c p).1.comps = f.comps ∧
    ringAt (attach f t c p).1 t p (rs ++ [c]) ∧
    (∀ x, x ≠ c → x ∉ rs → ∀ t2,
      (attach f t c p).1.childLinks t2 x = f.childLinks t2 x) ∧
    (∀ x, x ≠ p → ∀ t2,
      (attach f t c p).1.parentLinks t2 x = f.parentLinks t2 x) ∧
    (attach f t c p).1.childLinks t p = none := by
  have hcyc : cycleCheck f t c p = false := by
    rw [cycleCheck_of_rootParent hclp]
    simp [hcp]
  rcases hring with ⟨hrs, hpl⟩ | hr
  · subst hrs
    have hat := attach_ok_none halc halp hclc hcyc hpl
    rw [hat]
    have heffc : ∀ x, x ≠ c → ∀ t2,
        (setPL (setCL f t c ⟨p, c, c⟩) t p ⟨c, 1⟩).childLinks t2 x
          = f.childLinks t2 x := by
      intro x hxc t2
      rw [setPL_childLinks, setCL_lookup, if_neg (fun h => hxc h.2)]
    refine ⟨rfl, rfl, rfl, rfl, ?_, fun x hxc _ t2 => heffc x hxc t2, ?_, ?_⟩
    · right
      refine ⟨by simp, ?_, by simp, ?_⟩
      · rw [setPL_lookup, if_pos ⟨rfl, rfl⟩]
        rfl
      · intro i hi
        have hi0 : i = 0 := by simpa using hi
        subst hi0
        rw [setPL_childLinks, setCL_lookup, if_pos ⟨rfl, rfl⟩]
        simp [cyc]
    · intro x hxp t2
      rw [setPL_lookup, if_neg (fun h => hxp h.2), setCL_parentLinks]
    · rw [heffc p (fun h => hcp h.symm) t]
      exact hclp
  · have hne := hr.1
    have hl : 0 < rs.length := List.length_pos.mpr hne
    have hpl : f.parentLinks t p = some ⟨cyc rs 0, rs.length⟩ := hr.2.1
    have h0 : f.childLinks t (cyc rs 0) =
        some ⟨p, cyc rs 1, cyc rs (rs.length - 1)⟩ := by
      have h00 := hr.2.2.2 0 hl
      simpa using h00
    have hat : attach f t c p =
        (setPL
          (modifyCL
            (modifyCL (setCL f t c ⟨p, cyc rs 0, cyc rs (rs.length - 1)⟩) t
              (cyc rs (rs.length - 1)) (fun cl => { cl with next := c }))
            t (cyc rs 0) (fun cl => { cl with prev := c }))
          t p ⟨cyc rs 0, rs.length + 1⟩, none) :=
      attach_ok_some halc halp hclc hcyc hpl h0
    rw [hat]
    have happ := ringInv_append hr hcnot hcp
    have hfirstmem : cyc rs 0 ∈ rs := cyc_mem hne 0
    have hlastmem : cyc rs (rs.length - 1) ∈ rs := cyc_mem hne _
    have heffc : ∀ x, x ≠ c → x ∉ rs → ∀ t2,
        (setPL
          (modifyCL
            (modifyCL (setCL f t c ⟨p, cyc rs 0, cyc rs (rs.length - 1)⟩) t
              (cyc rs (rs.length - 1)) (fun cl => { cl with next := c }))
            t (cyc rs 0) (fun cl => { cl with prev := c }))
          t p ⟨cyc rs 0, rs.length + 1⟩).childLinks t2 x = f.childLinks t2 x := by
      intro x hxc hxrs t2
      rw [setPL_childLinks,
        modifyCL_lookup, if_neg (fun h => hxrs (by rw [h.2]; exact hfirstmem)),
        modifyCL_lookup, if_neg (fun h => hxrs (by rw [h.2]; exact hlastmem)),
        setCL_lookup, if_neg (fun h => hxc h.2)]
    refine ⟨rfl, rfl, rfl, rfl, Or.inr happ, heffc, ?_, ?_⟩
    · intro x hxp t2
      rw [setPL_lookup, if_neg (fun h => hxp h.2), modifyCL_parentLinks,
        modifyCL_parentLinks, setCL_parentLinks]
    · rw [heffc p (fun h => hcp h.symm) hpnot t]
      exact hclp

/-- `attach` reads the allocation watermark only through the cycle guard's
fuel, which is irrelevant when the parent has no `ChildLink`: raising the
watermark commutes with the attach. -/
lemma attach_next_indep {f : Frame M} {t : M} {c p : Nat} (n : Nat)
    (hclp : f.childLinks t p = none) :
    attach { f with nextEntity := n } t c p =
      ({ (attach f t c p).1 with nextEntity := n }, (attach f t c p).2) := by
  have hc2 : cycleCheck f t c p = decide (c = p) := cycleCheck_of_rootParent hclp
  have hc1 : cycleCheck { f with nextEntity := n } t c p = decide (c = p) :=
    cycleCheck_of_rootParent (f := { f with nextEntity := n }) hclp
  by_cases h1 : f.alive c = true ∧ f.alive p = true
  · cases hcl : f.childLinks t c with
    | some v =>
      have hs : (f.childLinks t c).isSome = true := by rw [hcl]; rfl
      rw [attach_err_already (f := { f with nextEntity := n }) h1.1 h1.2 hs,
        attach_err_already h1.1 h1.2 hs]
    | none =>
      by_cases h3 : c = p
      · have e2 : cycleCheck f t c p = true := by rw [hc2]; simp [h3]
        have e1 : cycleCheck { f with nextEntity := n } t c p = true := by
          rw [hc1]; simp [h3]
        rw [attach_err_cycle (f := { f with nextEntity := n }) h1.1 h1.2 hcl e1,
          attach_err_cycle h1.1 h1.2 hcl e2]
      · have e2 : cycleCheck f t c p = false := by rw [hc2]; simp [h3]
        have e1 : cycleCheck { f with nextEntity := n } t c p = false := by
          rw [hc1]; simp [h3]
        cases hpl : f.parentLinks t p with
        | none =>
          rw [attach_ok_none (f := { f with nextEntity := n }) h1.1 h1.2 hcl e1 hpl,
            attach_ok_none h1.1 h1.2 hcl e2 hpl]
          rfl
        | some pl =>
          cases hclF : f.childLinks t pl.firstChild with
          | none =>
            rw [attach_err_missing (f := { f with nextEntity := n })
                h1.1 h1.2 hcl e1 hpl hclF,
              attach_err_missing h1.1 h1.2 hcl e2 hpl hclF]
          | some clF =>
            rw [attach_ok_some (f := { f with nextEntity := n })
                h1.1 h1.2 hcl e1 hpl hclF,
              attach_ok_some h1.1 h1.2 hcl e2 hpl hclF]
            rfl
  · rw [attach_err_notalive (f := { f with nextEntity := n }) h1,
      attach_err_notalive h1]

end BuilderEquivAttach

section BuilderEquivInsert

variable {M : Type} [DecidableEq M]

/-- Inserting onto the handle just reserved from `g` materialises exactly
that handle. -/
lemma insert_fresh_fst (g : Frame M) (b : List Nat) :
    (insertE { g with nextEntity := g.nextEntity + 1 } g.nextEntity b).1 =
      { g with
        nextEntity := g.nextEntity + 1
        alive := fun x => if x = g.nextEntity then true else g.alive x
        comps := fun x => if x = g.nextEntity then b ++ g.comps x else g.comps x } := by
  rw [insertE_ok b (show g.nextEntity <
    ({ g with nextEntity := g.nextEntity + 1 } : Frame M).nextEntity from
      Nat.lt_succ_self _)]

lemma insert_fresh_blank {g : Frame M} (hb : blankAbove g) (b : List Nat) :
    blankAbove
      ({ g with
         nextEntity := g.nextEntity + 1
         alive := fun x => if x = g.nextEntity then true else g.alive x
         comps := fun x => if x = g.nextEntity then b ++ g.comps x else g.comps x } :
        Frame M) := by
  intro e he
  have he' : g.nextEntity + 1 ≤ e := he
  obtain ⟨b1, b2, b3, b4⟩ := hb e (by omega)
  refine ⟨?_, ?_, b3, b4⟩
  · show (if e = g.nextEntity then true else g.alive e) = false
    rw [if_neg (by omega)]
    exact b1
  · show (if e = g.nextEntity then b ++ g.comps e else g.comps e) = []
    rw [if_neg (by omega)]
    exact b2

lemma insert_fresh_unch {g : Frame M} (b : List Nat) {x : Nat}
    (hx : x ≠ g.nextEntity) :
    unchElem
      ({ g with
         nextEntity := g.nextEntity + 1
         alive := fun x => if x = g.nextEntity then true else g.alive x
         comps := fun x => if x = g.nextEntity then b ++ g.comps x else g.comps x } :
        Frame M) g x := by
  refine ⟨?_, ?_, fun _ => rfl, fun _ => rfl⟩
  · show (if x = g.nextEntity then true else g.alive x) = g.alive x
    rw [if_neg hx]
  · show (if x = g.nextEntity then b ++ g.comps x else g.comps x) = g.comps x
    rw [if_neg hx]

end BuilderEquivInsert

mutual

/-- Core equivalence of `spawn_deferred` and `spawn` for one descriptor:
both return the reserved handle; the deferred pass only advances the
allocation watermark; the immediate pass stays blank above its watermark,
leaves every pre-existing entity untouched, makes the root live with no
`ChildLink`; and flushing the queued commands over any store that agrees
below the watermark reproduces the immediate result. -/
lemma spawnEq_main {M : Type} [DecidableEq M] (t : M) (tb : TB) :
    ∀ (f g : Frame M), reservedNone tb = true → blankAbove g →
      f.nextEntity = g.nextEntity →
      (spawnD t tb f).1 = g.nextEntity ∧
      (spawnI t tb g).1 = g.nextEntity ∧
      (spawnD t tb f).2.1 = { f with nextEntity := f.nextEntity + TBcount tb } ∧
      (spawnI t tb g).2.nextEntity = g.nextEntity + TBcount tb ∧
      blankAbove (spawnI t tb g).2 ∧
      (spawnI t tb g).2.alive g.nextEntity = true ∧
      (spawnI t tb g).2.childLinks t g.nextEntity = none ∧
      (∀ x, x < g.nextEntity → unchElem (spawnI t tb g).2 g x) ∧
      (∀ N, g.nextEntity + TBcount tb ≤ N →
        execCmds (spawnD t tb f).2.2 { g with nextEntity := N }
          = { (spawnI t tb g).2 with nextEntity := N }) := by
  match tb with
  | .mk b r cs =>
    intro f g hres hb hfg
    have hrn : r = none := by
      cases r with
      | none => rfl
      | some e => simp [reservedNone] at hres
    subst hrn
    have hresL : reservedNoneL cs = true := by
      simpa [reservedNone] using hres
    rw [spawnI_mk, spawnD_mk, insert_fresh_fst, hfg]
    obtain ⟨L1, L2, L3, L4, L5, L6, L7, L8⟩ :=
      spawnEq_list t cs { f with nextEntity := g.nextEntity + 1 }
        ({ g with
           nextEntity := g.nextEntity + 1
           alive := fun x => if x = g.nextEntity then true else g.alive x
           comps := fun x => if x = g.nextEntity then b ++ g.comps x else g.comps x } :
          Frame M)
        g.nextEntity [] hresL (insert_fresh_blank hb b) rfl (Nat.lt_succ_self _)
        (by
          show (if g.nextEntity = g.nextEntity then true else g.alive g.nextEntity) = true
          rw [if_pos rfl])
        ((hb g.nextEntity (le_refl _)).2.2.1 t)
        (Or.inl ⟨rfl, (hb g.nextEntity (le_refl _)).2.2.2 t⟩)
        (fun m hm => absurd hm (List.not_mem_nil m))
    refine ⟨rfl, rfl, ?_, ?_, L3, L4, L6, ?_, ?_⟩
    · rw [L1]
      rw [show ({ f with nextEntity := g.nextEntity + 1 } : Frame M).nextEntity
            + TBcountL cs = g.nextEntity + TBcount (TB.mk b none cs) from by
        show g.nextEntity + 1 + TBcountL cs = g.nextEntity + TBcount (TB.mk b none cs)
        rw [TBcount_mk]
        omega]
    · rw [L2]
      show g.nextEntity + 1 + TBcountL cs = g.nextEntity + TBcount (TB.mk b none cs)
      rw [TBcount_mk]
      omega
    · intro x hx
      exact unchElem_trans
        (L7 x (by show x < g.nextEntity + 1; omega) (by omega) (List.not_mem_nil x))
        (insert_fresh_unch b (by omega))
    · intro N hN
      have hN' : g.nextEntity + 1 + TBcountL cs ≤ N := by
        rw [TBcount_mk] at hN
        omega
      rw [execCmds_cons]
      rw [show execCmd ({ g with nextEntity := N } : Frame M)
            (Cmd.cinsert g.nextEntity b)
            = { ({ g with
                   nextEntity := g.nextEntity + 1
                   alive := fun x => if x = g.nextEntity then true else g.alive x
                   comps := fun x => if x = g.nextEntity then b ++ g.comps x
                            else g.comps x } : Frame M) with nextEntity := N } from by
        show (insertE ({ g with nextEntity := N } : Frame M) g.nextEntity b).1 = _
        rw [insertE_ok b (show g.nextEntity <
            ({ g with nextEntity := N } : Frame M).nextEntity from by
          show g.nextEntity < N
          omega)]]
      exact L8 N (by show g.nextEntity + 1 + TBcountL cs ≤ N; omega)

/-- The child loop of `spawnEq_main`: given the parent `p` live, link-free
and carrying sibling ring `rs` strictly between `p` and the watermark, the
loop preserves all of it while appending one fresh subtree per descriptor,
and the deferred loop's commands replay to the immediate loop's store. -/
lemma spawnEq_list {M : Type} [DecidableEq M] (t : M) (cs : List TB) :
    ∀ (f g : Frame M) (p : Nat) (rs : List Nat),
      reservedNoneL cs = true → blankAbove g → f.nextEntity = g.nextEntity →
      p < g.nextEntity → g.alive p = true → g.childLinks t p = none →
      ringAt g t p rs → (∀ m ∈ rs, p < m ∧ m < g.nextEntity) →
      (spawnDList t cs p f).1 = { f with nextEntity := f.nextEntity + TBcountL cs } ∧
      (spawnIList t cs p g).nextEntity = g.nextEntity + TBcountL cs ∧
      blankAbove (spawnIList t cs p g) ∧
      (spawnIList t cs p g).alive p = true ∧
      (spawnIList t cs p g).comps p = g.comps p ∧
      (spawnIList t cs p g).childLinks t p = none ∧
      (∀ x, x < g.nextEntity → x ≠ p → x ∉ rs →
        unchElem (spawnIList t cs p g) g x) ∧
      (∀ N, g.nextEntity + TBcountL cs ≤ N →
        execCmds (spawnDList t cs p f).2 { g with nextEntity := N }
          = { spawnIList t cs p g with nextEntity := N }) := by
  match cs with
  | [] =>
    intro f g p rs hresL hb hfg hplt halp hclp hring hbnd
    exact ⟨rfl, rfl, hb, halp, rfl, hclp, fun x _ _ _ => unchElem_refl g x,
      fun N _ => rfl⟩
  | c :: rest =>
    intro f g p rs hresL hb hfg hplt halp hclp hring hbnd
    have hres2 : reservedNone c = true ∧ reservedNoneL rest = true := by
      simpa [reservedNoneL, Bool.and_eq_true] using hresL
    obtain ⟨M1, M2, M3, M4, M5, M6, M7, M8, M9⟩ :=
      spawnEq_main t c f g hres2.1 hb hfg
    have hcnt := TBcount_pos c
    rw [spawnIList_cons, spawnDList_cons, M1, M2, M3]
    have hu := M8 p hplt
    have hap : (spawnI t c g).2.alive p = true := by
      rw [hu.1]
      exact halp
    have hclpI : (spawnI t c g).2.childLinks t p = none := by
      rw [hu.2.2.1 t]
      exact hclp
    have hringI : ringAt (spawnI t c g).2 t p rs :=
      ringAt_congr hring (hu.2.2.2 t)
        (fun m hm => (M8 m (hbnd m hm).2).2.2.1 t)
    have hcnot : g.nextEntity ∉ rs := fun hm => by
      have := (hbnd _ hm).2
      omega
    have hpnot : p ∉ rs := fun hm => by
      have := (hbnd _ hm).1
      omega
    obtain ⟨A1, A2, A3, A4, A5, A6, A7, A8⟩ :=
      attach_ring_step (f := (spawnI t c g).2) (t := t) (c := g.nextEntity)
        (p := p) M6 hap M7 hclpI (by omega) hringI hcnot hpnot
    have hfAn : (attach (spawnI t c g).2 t g.nextEntity p).1.nextEntity
        = g.nextEntity + TBcount c := by
      rw [A2, M4]
    have hbA : blankAbove (attach (spawnI t c g).2 t g.nextEntity p).1 := by
      refine blankAbove_of_effect M5 (le_of_eq A2.symm) ?_
      intro x hx
      have hx2 : g.nextEntity < x := by
        rw [hfAn] at hx
        omega
      have hxrs : x ∉ rs := fun hm => by
        have := (hbnd x hm).2
        omega
      exact ⟨congrFun A3 x, congrFun A4 x, fun t2 => A6 x (by omega) hxrs t2,
        fun t2 => A7 x (by omega) t2⟩
    obtain ⟨R1, R2, R3, R4, R5, R6, R7, R8⟩ :=
      spawnEq_list t rest { f with nextEntity := f.nextEntity + TBcount c }
        (attach (spawnI t c g).2 t g.nextEntity p).1 p (rs ++ [g.nextEntity])
        hres2.2 hbA
        (by
          show f.nextEntity + TBcount c
            = (attach (spawnI t c g).2 t g.nextEntity p).1.nextEntity
          rw [hfAn]
          omega)
        (by rw [hfAn]; omega)
        (by rw [congrFun A3 p]; exact hap)
        A8 A5
        (by
          intro m hm
          rw [hfAn]
          rcases List.mem_append.mp hm with h | h
          · have h1 := (hbnd m h).1
            have h2 := (hbnd m h).2
            exact ⟨h1, by omega⟩
          · rw [List.mem_singleton] at h
            subst h
            exact ⟨hplt, by omega⟩)
    refine ⟨?_, ?_, R3, R4, ?_, R6, ?_, ?_⟩
    · rw [R1]
      rw [show ({ f with nextEntity := f.nextEntity + TBcount c } : Frame M).nextEntity
            + TBcountL rest = f.nextEntity + TBcountL (c :: rest) from by
        show f.nextEntity + TBcount c + TBcountL rest = f.nextEntity + TBcountL (c :: rest)
        rw [TBcountL_cons]
        omega]
    · rw [R2, hfAn, TBcountL_cons]
      omega
    · rw [R5, congrFun A4 p]
      exact hu.2.1
    · intro x hx hxp hxrs
      have hxrs2 : x ∉ rs ++ [g.nextEntity] := by
        intro hm
        rcases List.mem_append.mp hm with h | h
        · exact hxrs h
        · rw [List.mem_singleton] at h
          omega
      refine unchElem_trans (R7 x ?_ hxp hxrs2) (unchElem_trans ?_ (M8 x hx))
      · rw [hfAn]
        omega
      · exact ⟨congrFun A3 x, congrFun A4 x, fun t2 => A6 x (by omega) hxrs t2,
          fun t2 => A7 x hxp t2⟩
    · intro N hN
      have hN' : g.nextEntity + TBcount c + TBcountL rest ≤ N := by
        rw [TBcountL_cons] at hN
        omega
      rw [execCmds_append, M9 N (by omega), execCmds_cons]
      rw [show execCmd ({ (spawnI t c g).2 with nextEntity := N } : Frame M)
            (Cmd.cattach t g.nextEntity p)
            = { (attach (spawnI t c g).2 t g.nextEntity p).1 with nextEntity := N }
          from by
        show (attach ({ (spawnI t c g).2 with nextEntity := N } : Frame M)
            t g.nextEntity p).1
          = { (attach (spawnI t c g).2 t g.nextEntity p).1 with nextEntity := N }
        rw [attach_next_indep N hclpI]]
      exact R8 N (by rw [hfAn]; omega)

end

/-- C9: for every reservation-free tree descriptor, spawning it deferred
(`spawn_deferred` into a command buffer, followed by executing the buffer)
produces the same observable result as immediate `spawn`: the returned root
handle is the handle reserved before any store mutation (the deferred pass
itself only advances the allocation watermark), and after the flush the
store equals the immediate-spawn store — in particular every node carries
the same components and every parent the same sibling (descriptor) order. -/
theorem C9_deferred_spawn_equiv {M : Type} [DecidableEq M] (t : M) (tb : TB)
    (f : Frame M) (hres : reservedNone tb = true) (hb : blankAbove f) :
    (spawnD t tb f).1 = f.nextEntity ∧
    (spawnD t tb f).1 = (spawnI t tb f).1 ∧
    execCmds (spawnD t tb f).2.2 (spawnD t tb f).2.1 = (spawnI t tb f).2 ∧
    (∀ e, getComps (execCmds (spawnD t tb f).2.2 (spawnD t tb f).2.1) e
        = getComps (spawnI t tb f).2 e) ∧
    (∀ e, childrenList (execCmds (spawnD t tb f).2.2 (spawnD t tb f).2.1) t e
        = childrenList (spawnI t tb f).2 t e) := by
  obtain ⟨h1, h2, h3, h4, h5, h6, h7, h8, h9⟩ := spawnEq_main t tb f f hres hb rfl
  have hexec : execCmds (spawnD t tb f).2.2 (spawnD t tb f).2.1
      = (spawnI t tb f).2 := by
    rw [h3, h9 (f.nextEntity + TBcount tb) (le_refl _), ← h4]
  exact ⟨h1, h1.trans h2.symm, hexec, fun e => by rw [hexec], fun e => by rw [hexec]⟩

/-- Witness for C9: concrete three-level descriptor `tb9` over the
one-entity store — the deferred command flush reproduces the
immediate-spawn store and both return root handle `1`. -/
theorem C9_deferred_spawn_equiv_witness :
    (spawnD true tb9 fw1).1 = 1 ∧
    (spawnD true tb9 fw1).1 = (spawnI true tb9 fw1).1 ∧
    execCmds (spawnD true tb9 fw1).2.2 (spawnD true tb9 fw1).2.1
      = (spawnI true tb9 fw1).2 := by
  have h := C9_deferred_spawn_equiv true tb9 fw1 (by decide)
    (blankAbove_spawnE blankAbove_empty [])
  exact ⟨h.1, h.2.1, h.2.2.1⟩

/-- C10: `reserve` is idempotent — the first call caches the freshly
reserved handle in the builder's cell and every repeated call returns that
cached handle without touching the store — and a subsequent `spawn` returns
exactly the reserved handle and inserts the root bundle onto it, so a
handle obtained from `reserve` before spawning is valid for the spawned
root. -/
theorem C10_reserve_idempotent {M : Type} [DecidableEq M] (t : M) (b : List Nat)
    (cs : List TB) (f : Frame M) (hres : reservedNoneL cs = true)
    (hb : blankAbove f) :
    (reserveB (TB.mk b none cs) f).1 = f.nextEntity ∧
    (∀ g : Frame M,
      reserveB (reserveB (TB.mk b none cs) f).2.1 g
        = ((reserveB (TB.mk b none cs) f).1,
           (reserveB (TB.mk b none cs) f).2.1, g)) ∧
    (spawnI t (reserveB (TB.mk b none cs) f).2.1
        (reserveB (TB.mk b none cs) f).2.2).1
      = (reserveB (TB.mk b none cs) f).1 ∧
    getComps
      (spawnI t (reserveB (TB.mk b none cs) f).2.1
        (reserveB (TB.mk b none cs) f).2.2).2
      (reserveB (TB.mk b none cs) f).1 = .ok b := by
  refine ⟨rfl, fun g => rfl, rfl, ?_⟩
  show getComps
    (spawnIList t cs f.nextEntity
      (insertE { f with nextEntity := f.nextEntity + 1 } f.nextEntity b).1)
    f.nextEntity = .ok b
  rw [insert_fresh_fst]
  obtain ⟨L1, L2, L3, L4, L5, L6, L7, L8⟩ :=
    spawnEq_list t cs
      ({ f with
         nextEntity := f.nextEntity + 1
         alive := fun x => if x = f.nextEntity then true else f.alive x
         comps := fun x => if x = f.nextEntity then b ++ f.comps x else f.comps x } :
        Frame M)
      ({ f with
         nextEntity := f.nextEntity + 1
         alive := fun x => if x = f.nextEntity then true else f.alive x
         comps := fun x => if x = f.nextEntity then b ++ f.comps x else f.comps x } :
        Frame M)
      f.nextEntity [] hres (insert_fresh_blank hb b) rfl (Nat.lt_succ_self _)
      (by
        show (if f.nextEntity = f.nextEntity then true else f.alive f.nextEntity) = true
        rw [if_pos rfl])
      ((hb f.nextEntity (le_refl _)).2.2.1 t)
      (Or.inl ⟨rfl, (hb f.nextEntity (le_refl _)).2.2.2 t⟩)
      (fun m hm => absurd hm (List.not_mem_nil m))
  have hcomps :
      (spawnIList t cs f.nextEntity
        ({ f with
           nextEntity := f.nextEntity + 1
           alive := fun x => if x = f.nextEntity then true else f.alive x
           comps := fun x => if x = f.nextEntity then b ++ f.comps x
                    else f.comps x } : Frame M)).comps f.nextEntity = b := by
    rw [L5]
    show (if f.nextEntity = f.nextEntity then b ++ f.comps f.nextEntity
          else f.comps f.nextEntity) = b
    rw [if_pos rfl, (hb f.nextEntity (le_refl _)).2.1, List.append_nil]
  unfold getComps
  rw [L4, if_pos rfl, hcomps]

/-- Witness for C10 at a concrete builder over the one-entity store: the
first reserve yields handle `1`, a repeated reserve returns the same handle
and the same store, and spawn returns `1` carrying exactly the root
bundle. -/
theorem C10_reserve_idempotent_witness :
    (reserveB (TB.mk [10] none [TB.mk [11] none []]) fw1).1 = 1 ∧
    reserveB (reserveB (TB.mk [10] none [TB.mk [11] none []]) fw1).2.1 fw1
      = (1, (reserveB (TB.mk [10] none [TB.mk [11] none []]) fw1).2.1, fw1) ∧
    (spawnI true (reserveB (TB.mk [10] none [TB.mk [11] none []]) fw1).2.1
        (reserveB (TB.mk [10] none [TB.mk [11] none []]) fw1).2.2).1 = 1 ∧
    getComps
      (spawnI true (reserveB (TB.mk [10] none [TB.mk [11] none []]) fw1).2.1
        (reserveB (TB.mk [10] none [TB.mk [11] none []]) fw1).2.2).2 1
      = .ok [10] := by
  have h := C10_reserve_idempotent true [10] [TB.mk [11] none []] fw1 (by decide)
    (blankAbove_spawnE blankAbove_empty [])
  exact ⟨h.1, h.2.1 fw1, h.2.2.1, h.2.2.2⟩
